import Mathlib

/-!
Shallow embedding of the `@devaloi/ratelimit` admission-control core:
the three rate-limiting algorithms (fixed window, sliding window log,
token bucket) and the two store backends (in-memory `MemoryStore`,
Redis-backed `RedisStore`).

Modelling conventions:
* JavaScript numbers are embedded as `ℚ` (exact rational arithmetic);
  `Math.floor` / `Math.ceil` / `Math.min` / `Math.max` become the
  corresponding operations on `ℚ`.
* A TS object with optional fields becomes a structure of `Option` fields.
* A store backend's mutable map becomes a function `κ → Option _` threaded
  through each operation (explicit state passing).
* `async` methods have no internal await-interleaving relevant to the
  sequential claims; they are embedded as pure state transformers.
  Concurrency claims get an explicit small-step interleaving model.
* TS `throw` becomes `Except String`.
-/

/-- `StoreEntry` from `src/stores/types.ts`: the persisted per-key record.
All fields optional; numeric fields are JS numbers (here `ℚ`),
`timestamps` is a JS array of numbers. -/
structure StoreEntry where
  count : Option ℚ := none
  timestamps : Option (List ℚ) := none
  tokens : Option ℚ := none
  lastRefill : Option ℚ := none
  windowStart : Option ℚ := none
  expiresAt : Option ℚ := none
deriving Repr, DecidableEq

/-- `RateLimitResult` from `src/types.ts`. `resetAt` is a `Date`,
embedded as its millisecond value. `retryAfter` is present only on denial. -/
structure RateLimitResult where
  allowed : Bool
  limit : ℚ
  remaining : ℚ
  resetAt : ℚ
  retryAfter : Option ℚ := none
deriving Repr, DecidableEq, Inhabited

/-- The numeric fields of `StoreEntry` that `increment(key, field, ttl)`
can target (the `keyof StoreEntry` argument; all callers use `count`). -/
inductive EntryField where
  | count
  | tokens
  | lastRefill
  | windowStart
  | expiresAt
deriving Repr, DecidableEq

/-- Read a numeric field of an entry (`entry[field]`). -/
def EntryField.read : EntryField → StoreEntry → Option ℚ
  | .count, e => e.count
  | .tokens, e => e.tokens
  | .lastRefill, e => e.lastRefill
  | .windowStart, e => e.windowStart
  | .expiresAt, e => e.expiresAt

/-- Write a numeric field of an entry (`entry[field] = v`). -/
def EntryField.write : EntryField → StoreEntry → ℚ → StoreEntry
  | .count, e, v => { e with count := some v }
  | .tokens, e, v => { e with tokens := some v }
  | .lastRefill, e, v => { e with lastRefill := some v }
  | .windowStart, e, v => { e with windowStart := some v }
  | .expiresAt, e, v => { e with expiresAt := some v }

namespace MemoryStore

/-- `InternalEntry` from `src/stores/memory.ts`: stored entry plus its
absolute expiry instant. -/
structure InternalEntry where
  entry : StoreEntry
  expiresAt : ℚ
deriving Repr, DecidableEq

/-- The memory store's `Map`, keyed by `κ` (the TS code uses strings;
the fixed-window algorithm's `${key}:${windowStart}` storage key is
embedded as the pair `String × ℚ`, which the template string encodes
injectively for colon-free keys). -/
def State (κ : Type) : Type := κ → Option InternalEntry

/-- The empty store. -/
def State.empty {κ : Type} : State κ := fun _ => none

/-- Update one key of the map (`this.data.set` / `this.data.delete`). -/
def State.update {κ : Type} [DecidableEq κ] (st : State κ) (k : κ)
    (v : Option InternalEntry) : State κ :=
  fun k' => if k' = k then v else st k'

/-- `MemoryStore.get` (src/stores/memory.ts:71-84): returns the live entry
or `none`; lazily deletes an expired entry (hence also returns the
updated state). -/
def get {κ : Type} [DecidableEq κ] (st : State κ) (now : ℚ) (key : κ) :
    Option StoreEntry × State κ :=
  match st key with
  | none => (none, st)
  | some item =>
      if item.expiresAt ≤ now then
        (none, st.update key none)
      else
        (some item.entry, st)

/-- `MemoryStore.set` (src/stores/memory.ts:89-99): stores
`{ ...entry, expiresAt }` with outer expiry `now + ttlMs`. -/
def set {κ : Type} [DecidableEq κ] (st : State κ) (now : ℚ) (key : κ)
    (entry : StoreEntry) (ttlMs : ℚ) : State κ :=
  st.update key (some ⟨{ entry with expiresAt := some (now + ttlMs) }, now + ttlMs⟩)

/-- `MemoryStore.increment` (src/stores/memory.ts:105-126): atomic
read-modify-write of one numeric field; creates the entry (with value 1
and a fresh expiry) when absent or expired, otherwise increments in place
keeping the original expiry. Returns the post-increment value and state. -/
def increment {κ : Type} [DecidableEq κ] (st : State κ) (now : ℚ) (key : κ)
    (field : EntryField) (ttlMs : ℚ) : ℚ × State κ :=
  match st key with
  | none =>
      let expiresAt := now + ttlMs
      let entry := field.write { expiresAt := some expiresAt } 1
      (1, st.update key (some ⟨entry, expiresAt⟩))
  | some item =>
      if item.expiresAt ≤ now then
        let expiresAt := now + ttlMs
        let entry := field.write { expiresAt := some expiresAt } 1
        (1, st.update key (some ⟨entry, expiresAt⟩))
      else
        let currentValue := (field.read item.entry).getD 0
        let entry := field.write item.entry (currentValue + 1)
        (currentValue + 1, st.update key (some ⟨entry, item.expiresAt⟩))

/-- `MemoryStore.delete` (src/stores/memory.ts:131-134). -/
def del {κ : Type} [DecidableEq κ] (st : State κ) (key : κ) : State κ :=
  st.update key none

lemma get_none {κ : Type} [DecidableEq κ] {st : State κ} {key : κ} (now : ℚ)
    (h : st key = none) : get st now key = (none, st) := by
  unfold get; rw [h]

lemma get_live {κ : Type} [DecidableEq κ] {st : State κ} {key : κ} {now : ℚ}
    {item : InternalEntry} (h : st key = some item) (hl : ¬ item.expiresAt ≤ now) :
    get st now key = (some item.entry, st) := by
  unfold get; rw [h]; simp [hl]

lemma get_expired {κ : Type} [DecidableEq κ] {st : State κ} {key : κ} {now : ℚ}
    {item : InternalEntry} (h : st key = some item) (hl : item.expiresAt ≤ now) :
    get st now key = (none, st.update key none) := by
  unfold get; rw [h]; simp [hl]

lemma increment_create {κ : Type} [DecidableEq κ] {st : State κ} {key : κ}
    (now : ℚ) (field : EntryField) (ttlMs : ℚ) (h : st key = none) :
    increment st now key field ttlMs =
      (1, st.update key
        (some ⟨field.write { expiresAt := some (now + ttlMs) } 1, now + ttlMs⟩)) := by
  unfold increment; rw [h]

lemma increment_live {κ : Type} [DecidableEq κ] {st : State κ} {key : κ} {now : ℚ}
    {item : InternalEntry} (field : EntryField) (ttlMs : ℚ)
    (h : st key = some item) (hl : ¬ item.expiresAt ≤ now) :
    increment st now key field ttlMs =
      ((field.read item.entry).getD 0 + 1,
       st.update key
        (some ⟨field.write item.entry ((field.read item.entry).getD 0 + 1),
               item.expiresAt⟩)) := by
  unfold increment; rw [h]; simp [hl]

lemma update_self {κ : Type} [DecidableEq κ] (st : State κ) (k : κ)
    (v : Option InternalEntry) : st.update k v k = v := by
  unfold State.update; simp

end MemoryStore

namespace FixedWindow

/-- `FixedWindowAlgorithm` configuration (limit, windowMs). The
constructor (src/algorithms/fixed-window.ts:92-97) performs no
validation, so it is a total function of the config. -/
structure Config where
  limit : ℚ
  windowMs : ℚ
deriving Repr, DecidableEq

/-- `getWindowStart` (src/algorithms/fixed-window.ts:102-104):
`Math.floor(timestamp / windowMs) * windowMs`. -/
def getWindowStart (cfg : Config) (timestamp : ℚ) : ℚ :=
  (⌊timestamp / cfg.windowMs⌋ : ℤ) * cfg.windowMs

/-- Storage key `${key}:${windowStart}` embedded as a pair. -/
def getStorageKey (key : String) (windowStart : ℚ) : String × ℚ :=
  (key, windowStart)

/-- `FixedWindowAlgorithm.consume` (src/algorithms/fixed-window.ts:116-163)
run against a `MemoryStore`, as one state transformer. -/
def consume (cfg : Config) (st : MemoryStore.State (String × ℚ)) (now : ℚ)
    (key : String) : RateLimitResult × MemoryStore.State (String × ℚ) :=
  let windowStart := getWindowStart cfg now
  let windowEnd := windowStart + cfg.windowMs
  let storageKey := getStorageKey key windowStart
  let got := MemoryStore.get st now storageKey
  let currentCount := (got.1.bind (·.count)).getD 0
  let resetAt := windowEnd
  if cfg.limit ≤ currentCount then
    let retryAfter := (⌈(windowEnd - now) / 1000⌉ : ℤ)
    ({ allowed := false, limit := cfg.limit, remaining := 0,
       resetAt := resetAt, retryAfter := some retryAfter }, got.2)
  else
    let ttlMs := windowEnd - now
    let incr := MemoryStore.increment got.2 now storageKey .count ttlMs
    if cfg.limit < incr.1 then
      let retryAfter := (⌈(windowEnd - now) / 1000⌉ : ℤ)
      ({ allowed := false, limit := cfg.limit, remaining := 0,
         resetAt := resetAt, retryAfter := some retryAfter }, incr.2)
    else
      ({ allowed := true, limit := cfg.limit, remaining := cfg.limit - incr.1,
         resetAt := resetAt }, incr.2)

/-- Run a sequence of `consume` calls for one key at the given instants,
collecting the results. -/
def run (cfg : Config) (key : String) :
    List ℚ → MemoryStore.State (String × ℚ) →
    List RateLimitResult × MemoryStore.State (String × ℚ)
  | [], st => ([], st)
  | t :: ts, st =>
      let r := consume cfg st t key
      let rest := run cfg key ts r.2
      (r.1 :: rest.1, rest.2)

end FixedWindow

namespace FixedWindow

/-- The internal entry the fixed-window/memory-store combination stores for
a window ending at `wEnd` once `m` requests have been counted. -/
def fwEntry (m : ℕ) (wEnd : ℚ) : MemoryStore.InternalEntry :=
  ⟨{ count := some (m : ℚ), expiresAt := some wEnd }, wEnd⟩

lemma getWindowStart_eq {W t : ℚ} {l : ℚ} {j : ℤ} (hW : 0 < W)
    (ht1 : (j : ℚ) * W ≤ t) (ht2 : t < ((j : ℚ) + 1) * W) :
    getWindowStart ⟨l, W⟩ t = (j : ℚ) * W := by
  unfold getWindowStart
  have hfloor : ⌊t / W⌋ = j := by
    rw [Int.floor_eq_iff]
    constructor
    · rw [le_div_iff₀ hW]; exact ht1
    · rw [div_lt_iff₀ hW]; exact ht2
  rw [hfloor]

lemma consume_step (L : ℕ) (W : ℚ) (j : ℤ) (key : String) (t : ℚ) (m : ℕ)
    (hW : 0 < W) (hm : m ≤ L)
    (ht1 : (j : ℚ) * W ≤ t) (ht2 : t < ((j : ℚ) + 1) * W)
    (st : MemoryStore.State (String × ℚ))
    (hst : st (key, (j : ℚ) * W) =
      if m = 0 then none else some (fwEntry m ((j : ℚ) * W + W))) :
    consume ⟨(L : ℚ), W⟩ st t key =
      if m < L then
        ({ allowed := true, limit := (L : ℚ), remaining := (L : ℚ) - (m + 1),
           resetAt := (j : ℚ) * W + W },
         st.update (key, (j : ℚ) * W) (some (fwEntry (m + 1) ((j : ℚ) * W + W))))
      else
        ({ allowed := false, limit := (L : ℚ), remaining := 0,
           resetAt := (j : ℚ) * W + W,
           retryAfter := some ((⌈(((j : ℚ) * W + W) - t) / 1000⌉ : ℤ) : ℚ) }, st) := by
  have hnotexp : ¬ ((j : ℚ) * W + W ≤ t) := by
    intro h
    have : t < (j : ℚ) * W + W := by linarith [ht2]
    linarith
  simp only [consume, getStorageKey]
  rw [getWindowStart_eq hW ht1 ht2]
  rcases Nat.eq_zero_or_pos m with hm0 | hmpos
  · subst hm0
    rw [if_pos rfl] at hst
    rw [MemoryStore.get_none t hst]
    have hcnt : ((((none : Option StoreEntry), st).1.bind
        fun e : StoreEntry => e.count).getD 0) = 0 := rfl
    rcases Nat.eq_zero_or_pos L with hL0 | hL1
    · subst hL0
      norm_num
    · have hc1 : ¬ ((L : ℚ) ≤ ((((none : Option StoreEntry), st).1.bind
          fun e : StoreEntry => e.count).getD 0)) := by
        rw [hcnt, not_le]
        exact_mod_cast hL1
      rw [if_neg hc1]
      dsimp only
      rw [MemoryStore.increment_create t .count _ hst]
      have hc2 : ¬ ((L : ℚ) < 1) := by
        rw [not_lt]
        exact_mod_cast hL1
      dsimp only [EntryField.write]
      rw [if_neg hc2, if_pos hL1]
      have hent : t + ((j : ℚ) * W + W - t) = (j : ℚ) * W + W := by ring
      simp only [hent, fwEntry]
      norm_num
  · have hmne : m ≠ 0 := Nat.pos_iff_ne_zero.mp hmpos
    rw [if_neg hmne] at hst
    rw [MemoryStore.get_live hst (by exact hnotexp)]
    have hcnt : (((some (fwEntry m ((j : ℚ) * W + W)).entry, st).1.bind
        fun e : StoreEntry => e.count).getD 0) = (m : ℚ) := rfl
    rcases Nat.lt_or_ge m L with hmL | hmL
    · have hc1 : ¬ ((L : ℚ) ≤ (((some (fwEntry m ((j : ℚ) * W + W)).entry, st).1.bind
          fun e : StoreEntry => e.count).getD 0)) := by
        rw [hcnt, not_le]
        exact_mod_cast hmL
      rw [if_neg hc1]
      dsimp only
      rw [MemoryStore.increment_live .count _ hst (by exact hnotexp)]
      have hread : (EntryField.read .count (fwEntry m ((j : ℚ) * W + W)).entry).getD 0
          = (m : ℚ) := rfl
      have hc2 : ¬ ((L : ℚ) < (m : ℚ) + 1) := by
        have : (m : ℚ) + 1 ≤ (L : ℚ) := by exact_mod_cast hmL
        linarith
      rw [if_pos hmL]
      simp only [hread, hc2, if_false]
      dsimp only [fwEntry, EntryField.write]
      push_cast
      ring_nf
    · obtain rfl : m = L := le_antisymm hm hmL
      have hc1 : ((m : ℚ) ≤ (((some (fwEntry m ((j : ℚ) * W + W)).entry, st).1.bind
          fun e : StoreEntry => e.count).getD 0)) := by
        rw [hcnt]
      rw [if_pos hc1, if_neg (lt_irrefl m)]

end FixedWindow

namespace FixedWindow

lemma run_get (L : ℕ) (W : ℚ) (j : ℤ) (key : String) (hW : 0 < W) :
    ∀ (ts : List ℚ) (st : MemoryStore.State (String × ℚ)) (m : ℕ),
      m ≤ L →
      (st (key, (j : ℚ) * W) =
        if m = 0 then none else some (fwEntry m ((j : ℚ) * W + W))) →
      (∀ t ∈ ts, (j : ℚ) * W ≤ t ∧ t < ((j : ℚ) + 1) * W) →
      ∀ i, i < ts.length →
        (run ⟨(L : ℚ), W⟩ key ts st).1.getD i default =
          if m + i < L then
            { allowed := true, limit := (L : ℚ), remaining := (L : ℚ) - (m + i + 1),
              resetAt := (j : ℚ) * W + W }
          else
            { allowed := false, limit := (L : ℚ), remaining := 0,
              resetAt := (j : ℚ) * W + W,
              retryAfter :=
                some ((⌈(((j : ℚ) * W + W) - ts.getD i 0) / 1000⌉ : ℤ) : ℚ) } := by
  intro ts
  induction ts with
  | nil =>
      intro st m _ _ _ i hi
      simp at hi
  | cons t ts ih =>
      intro st m hm hst hts i hi
      have ht := hts t (List.mem_cons_self t ts)
      have hstep := consume_step L W j key t m hW hm ht.1 ht.2 st hst
      rcases Nat.lt_or_ge m L with hmL | hmL
      · rw [if_pos hmL] at hstep
        have hrun : run ⟨(L : ℚ), W⟩ key (t :: ts) st =
            ((consume ⟨(L : ℚ), W⟩ st t key).1 ::
              (run ⟨(L : ℚ), W⟩ key ts (consume ⟨(L : ℚ), W⟩ st t key).2).1,
             (run ⟨(L : ℚ), W⟩ key ts (consume ⟨(L : ℚ), W⟩ st t key).2).2) := rfl
        rw [hrun, hstep]
        match i with
        | 0 =>
            rw [if_pos (by omega : m + 0 < L)]
            simp only [List.getD_cons_zero]
            simp only [RateLimitResult.mk.injEq, and_true, true_and]
            push_cast
            ring
        | i' + 1 =>
            simp only [List.getD_cons_succ]
            have hst' : (st.update (key, (j : ℚ) * W)
                (some (fwEntry (m + 1) ((j : ℚ) * W + W)))) (key, (j : ℚ) * W) =
                if m + 1 = 0 then none
                else some (fwEntry (m + 1) ((j : ℚ) * W + W)) := by
              rw [MemoryStore.update_self]
              simp
            have hts' : ∀ x ∈ ts, (j : ℚ) * W ≤ x ∧ x < ((j : ℚ) + 1) * W :=
              fun x hx => hts x (List.mem_cons_of_mem t hx)
            have hi' : i' < ts.length := by simpa using hi
            have := ih _ (m + 1) (by omega) hst' hts' i' hi'
            rw [this]
            by_cases hcond : m + 1 + i' < L
            · rw [if_pos hcond, if_pos (by omega : m + (i' + 1) < L)]
              simp only [RateLimitResult.mk.injEq, and_true, true_and]
              push_cast
              ring
            · rw [if_neg hcond, if_neg (by omega : ¬ m + (i' + 1) < L)]
      · have hnm : ¬ m < L := by omega
        rw [if_neg hnm] at hstep
        have hrun : run ⟨(L : ℚ), W⟩ key (t :: ts) st =
            ((consume ⟨(L : ℚ), W⟩ st t key).1 ::
              (run ⟨(L : ℚ), W⟩ key ts (consume ⟨(L : ℚ), W⟩ st t key).2).1,
             (run ⟨(L : ℚ), W⟩ key ts (consume ⟨(L : ℚ), W⟩ st t key).2).2) := rfl
        rw [hrun, hstep]
        match i with
        | 0 =>
            rw [if_neg (by omega : ¬ m + 0 < L)]
            simp only [List.getD_cons_zero]
        | i' + 1 =>
            simp only [List.getD_cons_succ]
            have hts' : ∀ x ∈ ts, (j : ℚ) * W ≤ x ∧ x < ((j : ℚ) + 1) * W :=
              fun x hx => hts x (List.mem_cons_of_mem t hx)
            have hi' : i' < ts.length := by simpa using hi
            have := ih _ m hm hst hts' i' hi'
            rw [this]
            rw [if_neg (by omega : ¬ m + i' < L), if_neg (by omega : ¬ m + (i' + 1) < L)]

end FixedWindow

/-- C1: for every limit `L ≥ 1` and key, with all calls inside one fixed
window (window index `j`) and no concurrency, the first `L` `consume`
calls on the fixed-window algorithm are allowed and every subsequent call
in that window is denied with `remaining = 0` and
`retryAfter = ⌈(windowEnd - now) / 1000⌉` seconds. -/
theorem fixedWindow_firstL_allowed_rest_denied
    (L : ℕ) (W : ℚ) (j : ℤ) (key : String) (ts : List ℚ)
    (hL : 1 ≤ L) (hW : 0 < W)
    (hts : ∀ t ∈ ts, (j : ℚ) * W ≤ t ∧ t < ((j : ℚ) + 1) * W)
    (i : ℕ) (hi : i < ts.length) :
    (i < L →
      ((FixedWindow.run ⟨(L : ℚ), W⟩ key ts MemoryStore.State.empty).1.getD i
        default).allowed = true)
    ∧ (L ≤ i →
      (FixedWindow.run ⟨(L : ℚ), W⟩ key ts MemoryStore.State.empty).1.getD i default
        = { allowed := false, limit := (L : ℚ), remaining := 0,
            resetAt := (j : ℚ) * W + W,
            retryAfter :=
              some ((⌈(((j : ℚ) * W + W) - ts.getD i 0) / 1000⌉ : ℤ) : ℚ) }) := by
  have hempty : (MemoryStore.State.empty : MemoryStore.State (String × ℚ))
      (key, (j : ℚ) * W) = if (0 : ℕ) = 0 then none
      else some (FixedWindow.fwEntry 0 ((j : ℚ) * W + W)) := by
    simp [MemoryStore.State.empty]
  have h := FixedWindow.run_get L W j key hW ts MemoryStore.State.empty 0
    (Nat.zero_le L) hempty hts i hi
  constructor
  · intro hiL
    rw [h, if_pos (by omega : 0 + i < L)]
  · intro hiL
    rw [h, if_neg (by omega : ¬ 0 + i < L)]

/-- Witness for C1 at `L = 2`, `W = 1000`, `j = 0`,
`ts = [1, 2, 3]`, `i = 2`: the third call is denied with `remaining = 0`
and `retryAfter = 1`. -/
theorem fixedWindow_firstL_allowed_rest_denied_witness :
    (FixedWindow.run ⟨(2 : ℚ), 1000⟩ "k" [1, 2, 3] MemoryStore.State.empty).1.getD 2
      default
      = { allowed := false, limit := (2 : ℚ), remaining := 0,
          resetAt := ((0 : ℤ) : ℚ) * 1000 + 1000,
          retryAfter :=
            some ((⌈((((0 : ℤ) : ℚ) * 1000 + 1000) - [(1 : ℚ), 2, 3].getD 2 0) / 1000⌉ : ℤ) : ℚ) } :=
  (fixedWindow_firstL_allowed_rest_denied 2 1000 0 "k" [1, 2, 3]
    (by decide) (by norm_num)
    (by intro t ht; fin_cases ht <;> norm_num) 2 (by decide)).2 (by decide)

/-- A JSON value, for the Redis store's on-wire encoding
(`JSON.stringify` / `JSON.parse`). -/
inductive JValue where
  | jnull
  | jbool (b : Bool)
  | jnum (q : ℚ)
  | jstr (s : String)
  | jarr (xs : List JValue)
  | jobj (fields : List (String × JValue))
deriving Repr

namespace JValue

/-- Property read `v[name]` on a JSON object's field list (JS objects keep
first binding per name; `JSON.parse` of `JSON.stringify` output has
distinct names). `none` is JS `undefined`. -/
def jget (fields : List (String × JValue)) (name : String) : Option JValue :=
  (fields.find? (fun p => p.1 = name)).map (·.2)

/-- Property write `obj[name] = v`: overwrite in place, else append. -/
def jset : List (String × JValue) → String → JValue → List (String × JValue)
  | [], name, v => [(name, v)]
  | (n', v') :: fs, name, v =>
      if n' = name then (name, v) :: fs else (n', v') :: jset fs name v

/-- Numeric projection (`typeof x === 'number'`). -/
def asNum : JValue → Option ℚ
  | .jnum q => some q
  | _ => none

/-- Read a list of JSON values as a list of numbers. -/
def asNumList : List JValue → Option (List ℚ)
  | [] => some []
  | x :: xs =>
      match asNum x, asNumList xs with
      | some q, some l => some (q :: l)
      | _, _ => none

end JValue

/-- A value cell of the Redis backend. Redis stores strings; we quotient a
stored string by its `JSON.parse` outcome: `invalid` stands for any string
`JSON.parse` rejects, `json v` for a string parsing to `v`. -/
inductive RedisVal where
  | invalid
  | json (v : JValue)
deriving Repr

/-- The Redis backend: a map from (prefixed) key to a value together with
its expiration instant (`none` = no TTL, the key persists forever; Redis
`SET key value` without `PX`/`KEEPTTL` clears any TTL). -/
def RedisState : Type := String → Option (RedisVal × Option ℚ)

namespace RedisState

def empty : RedisState := fun _ => none

def update (st : RedisState) (k : String) (v : Option (RedisVal × Option ℚ)) :
    RedisState :=
  fun k' => if k' = k then v else st k'

/-- Backend `GET`: respects Redis native expiry (an expired key reads as
absent). -/
def rawGet (st : RedisState) (now : ℚ) (key : String) : Option RedisVal :=
  match st key with
  | none => none
  | some (v, none) => some v
  | some (v, some e) => if e ≤ now then none else some v

end RedisState

/-- `isStoreEntry` (src/stores/redis.ts:7-25) at JS runtime semantics:
`typeof value === 'object'` holds for objects, arrays and `null`; `null`
is rejected by the `value === null` check; named-property reads on an
array are `undefined`, so arrays pass every field check. Only
`count`/`tokens`/`lastRefill` (number) and `timestamps` (array) are
checked; `expiresAt`, `windowStart`, and the element types of
`timestamps` are not inspected. -/
def isStoreEntry : JValue → Bool
  | .jobj fs =>
      (match JValue.jget fs "count" with
        | none => true | some (.jnum _) => true | some _ => false) &&
      (match JValue.jget fs "tokens" with
        | none => true | some (.jnum _) => true | some _ => false) &&
      (match JValue.jget fs "lastRefill" with
        | none => true | some (.jnum _) => true | some _ => false) &&
      (match JValue.jget fs "timestamps" with
        | none => true | some (.jarr _) => true | some _ => false)
  | .jarr _ => true
  | _ => false

/-- `JSON.stringify` of a `StoreEntry` (undefined fields omitted, literal
insertion order). -/
def encodeEntry (e : StoreEntry) : JValue :=
  .jobj ((e.count.toList.map fun q => ("count", JValue.jnum q)) ++
    (e.timestamps.toList.map fun l => ("timestamps", JValue.jarr (l.map .jnum))) ++
    (e.tokens.toList.map fun q => ("tokens", JValue.jnum q)) ++
    (e.lastRefill.toList.map fun q => ("lastRefill", JValue.jnum q)) ++
    (e.windowStart.toList.map fun q => ("windowStart", JValue.jnum q)) ++
    (e.expiresAt.toList.map fun q => ("expiresAt", JValue.jnum q)))

/-- Read a parsed JSON value back as a `StoreEntry` record (the typed view
the algorithms take of a well-formed parsed entry); used to state the
round-trip property. -/
def decodeEntry : JValue → Option StoreEntry
  | .jobj fs =>
      some { count := (JValue.jget fs "count").bind JValue.asNum,
             timestamps := (JValue.jget fs "timestamps").bind fun v =>
               match v with
               | .jarr xs => JValue.asNumList xs
               | _ => none,
             tokens := (JValue.jget fs "tokens").bind JValue.asNum,
             lastRefill := (JValue.jget fs "lastRefill").bind JValue.asNum,
             windowStart := (JValue.jget fs "windowStart").bind JValue.asNum,
             expiresAt := (JValue.jget fs "expiresAt").bind JValue.asNum }
  | _ => none

namespace RedisStore

/-- `RedisStore.get` (src/stores/redis.ts:54-68): fetch, parse, validate;
any parse failure or guard failure yields `null` (the `catch` swallows
parse exceptions, so `get` never raises). Returns the parsed value. -/
def get (pfx : String) (st : RedisState) (now : ℚ) (key : String) :
    Option JValue :=
  match RedisState.rawGet st now (pfx ++ key) with
  | none => none
  | some .invalid => none
  | some (.json v) => if isStoreEntry v then some v else none

/-- `RedisStore.set` (src/stores/redis.ts:76-79):
`SET prefixedKey JSON.stringify(entry) PX ttlMs`. -/
def set (pfx : String) (st : RedisState) (now : ℚ) (key : String)
    (entry : StoreEntry) (ttlMs : ℚ) : RedisState :=
  st.update (pfx ++ key) (some (.json (encodeEntry entry), some (now + ttlMs)))

/-- `RedisStore.delete` (src/stores/redis.ts:137-139). -/
def del (pfx : String) (st : RedisState) (key : String) : RedisState :=
  st.update (pfx ++ key) none

/-- JS field name of an `EntryField`. -/
def fieldName : EntryField → String
  | .count => "count"
  | .tokens => "tokens"
  | .lastRefill => "lastRefill"
  | .windowStart => "windowStart"
  | .expiresAt => "expiresAt"

/-- One body of `RedisStore.increment`'s retry loop plus the recursion
(src/stores/redis.ts:90-131). `fuel` is `maxRetries - attempt`; `sched`
models concurrent writers: at each attempt, `some f` means another client
modified the backend (applied between this client's read and its `EXEC`,
which therefore aborts, `results === null`), `none` means no concurrent
modification, so the `WATCH`ed transaction commits. A new entry is
committed with `PX ttlMs`; an existing one with a plain `SET` (no TTL
argument). The object field is read as
`(entry[field] as number | undefined) ?? 0` — non-numeric present values
of the guard-checked fields cannot occur here, since a guard failure
replaces the whole entry by `{}`. -/
def incrementGo (pfx key : String) (field : EntryField) (ttlMs now : ℚ) :
    ℕ → List (Option (RedisState → RedisState)) → RedisState →
    Except String (ℚ × RedisState)
  | 0, _, _ =>
      .error ("Failed to increment key \"" ++ key ++ "\" after 5 retries")
  | fuel + 1, sched, st =>
      let prefixedKey := pfx ++ key
      let data := RedisState.rawGet st now prefixedKey
      let isNew := data.isNone
      let fields : List (String × JValue) :=
        match data with
        | none => []
        | some .invalid => []
        | some (.json v) =>
            if isStoreEntry v then
              match v with
              | .jobj fs => fs
              | _ => []
            else []
      let currentValue : ℚ :=
        match data with
        | none => 0
        | some _ => ((JValue.jget fields (fieldName field)).bind JValue.asNum).getD 0
      let newValue := currentValue + 1
      let entry := JValue.jset fields (fieldName field) (.jnum newValue)
      match sched.headD none with
      | some f => incrementGo pfx key field ttlMs now fuel (sched.tail) (f st)
      | none =>
          let st' :=
            if isNew then
              st.update prefixedKey (some (.json (.jobj entry), some (now + ttlMs)))
            else
              st.update prefixedKey (some (.json (.jobj entry), none))
          .ok (newValue, st')

/-- `RedisStore.increment`: the bounded optimistic retry loop,
`maxRetries = 5`. -/
def increment (pfx key : String) (field : EntryField) (ttlMs now : ℚ)
    (sched : List (Option (RedisState → RedisState))) (st : RedisState) :
    Except String (ℚ × RedisState) :=
  incrementGo pfx key field ttlMs now 5 sched st

end RedisStore

namespace RedisState

lemma update_self_eq (st : RedisState) (k : String)
    (v : Option (RedisVal × Option ℚ)) : st.update k v k = v := by
  unfold update; simp

end RedisState

namespace JValue

lemma jget_jset_self (name : String) (v : JValue) :
    ∀ fs, jget (jset fs name v) name = some v := by
  intro fs
  induction fs with
  | nil => simp [jset, jget, List.find?]
  | cons p fs ih =>
      obtain ⟨n', v'⟩ := p
      by_cases h : n' = name
      · subst h
        simp [jset, jget, List.find?]
      · simp only [jset, if_neg h]
        rw [jget] at ih ⊢
        simp only [List.find?]
        have : (decide (n' = name)) = false := by simp [h]
        rw [this]
        exact ih

lemma asNumList_map_jnum (l : List ℚ) :
    asNumList (l.map JValue.jnum) = some l := by
  induction l with
  | nil => rfl
  | cons q l ih => simp [asNumList, asNum, ih]

end JValue

lemma decodeEntry_encodeEntry (e : StoreEntry) : decodeEntry (encodeEntry e) = some e := by
  obtain ⟨c, ts, tk, lr, ws, ex⟩ := e
  cases c <;> cases ts <;> cases tk <;> cases lr <;> cases ws <;> cases ex <;>
    simp [encodeEntry, decodeEntry, JValue.jget, JValue.asNum, List.find?,
      JValue.asNumList_map_jnum]

lemma isStoreEntry_encodeEntry (e : StoreEntry) : isStoreEntry (encodeEntry e) = true := by
  obtain ⟨c, ts, tk, lr, ws, ex⟩ := e
  cases c <;> cases ts <;> cases tk <;> cases lr <;> cases ws <;> cases ex <;>
    simp [encodeEntry, isStoreEntry, JValue.jget, List.find?]

/-- Backend state with a live entry `{count: 1}` under `rl:k` whose TTL
expires at instant 5000. -/
def redisLiveCountState : RedisState :=
  RedisState.empty.update "rl:k"
    (some (.json (encodeEntry { count := some 1 }), some 5000))

/-- C2 (code bug): `increment` on a key whose live entry already exists.
The memory store keeps the original expiration (5000), but the Redis
store commits the incremented entry with a plain `SET` — no `PX`, no
`KEEPTTL` — which clears the key's TTL (`none`), so the original
expiration is not preserved: the entry becomes non-expiring. -/
theorem increment_existing_entry_expiration_divergence :
    ((MemoryStore.increment
        (MemoryStore.State.empty.update "k" (some ⟨{ count := some 1 }, 5000⟩))
        1000 "k" EntryField.count 10000).2 "k"
      = some ⟨{ count := some 2 }, 5000⟩)
    ∧ (RedisStore.increment "rl:" "k" EntryField.count 10000 1000 [] redisLiveCountState
        = .ok (2, redisLiveCountState.update "rl:k"
            (some (.json (.jobj [("count", .jnum 2)]), none)))) := by
  constructor
  · show (MemoryStore.increment
        (MemoryStore.State.empty.update "k" (some ⟨{ count := some 1 }, 5000⟩))
        1000 "k" EntryField.count 10000).2 "k" = _
    rw [MemoryStore.increment_live EntryField.count 10000
      (MemoryStore.update_self ..) (by norm_num)]
    dsimp only
    rw [MemoryStore.update_self]
    simp only [EntryField.read, EntryField.write]
    norm_num
  · show RedisStore.incrementGo "rl:" "k" EntryField.count 10000 1000 5 [] _ = _
    unfold RedisStore.incrementGo
    have hraw : RedisState.rawGet redisLiveCountState 1000 ("rl:" ++ "k")
        = some (.json (encodeEntry { count := some 1 })) := by
      unfold RedisState.rawGet redisLiveCountState
      rw [show "rl:" ++ "k" = "rl:k" from rfl, RedisState.update_self_eq]
      norm_num
    simp only [hraw]
    simp only [List.headD_nil, Option.isNone_none, isStoreEntry_encodeEntry, if_pos,
      Option.isNone_some, Bool.false_eq_true, if_false]
    norm_num [encodeEntry, JValue.jget, JValue.jset, JValue.asNum, List.find?,
      RedisStore.fieldName, show "rl:" ++ "k" = "rl:k" from rfl]

/-- C3 counterexample: the memory store's `set` stores
`{ ...entry, expiresAt: now + ttlMs }`, overwriting the written entry's
`expiresAt` field (999 becomes 0 + 10 = 10), so the value read back is
not field-for-field identical to the value written. -/
theorem memoryStore_set_get_not_identical :
    (MemoryStore.get
        (MemoryStore.set MemoryStore.State.empty 0 "k"
          { count := some 1, expiresAt := some 999 } 10) 5 "k").1
      = some { count := some 1, expiresAt := some 10 }
    ∧ (MemoryStore.get
        (MemoryStore.set MemoryStore.State.empty 0 "k"
          { count := some 1, expiresAt := some 999 } 10) 5 "k").1
      ≠ some { count := some 1, expiresAt := some 999 } := by
  have h1 : (MemoryStore.get
      (MemoryStore.set MemoryStore.State.empty 0 "k"
        { count := some 1, expiresAt := some 999 } 10) 5 "k").1
      = some { count := some 1, expiresAt := some 10 } := by
    have hk : (MemoryStore.set MemoryStore.State.empty 0 "k"
        { count := some 1, expiresAt := some 999 } 10) "k"
        = some ⟨{ count := some 1, expiresAt := some (0 + 10) }, 0 + 10⟩ := by
      unfold MemoryStore.set
      exact MemoryStore.update_self ..
    rw [MemoryStore.get_live hk (by norm_num)]
    norm_num
  refine ⟨h1, ?_⟩
  rw [h1]
  simp

/-- C3 amended: reading an entry back before its TTL elapses returns, for
the memory store, the written entry with its `expiresAt` field overwritten
by `now + ttlMs` (all other fields intact); for the Redis store, exactly
the JSON encoding of the written entry, which decodes field-for-field to
the written entry (integers stay rationals/numbers, sequences keep order
and length). -/
theorem store_set_get_roundtrip (e : StoreEntry) (k pfx : String)
    (mst : MemoryStore.State String) (rst : RedisState)
    (now ttlMs now' : ℚ) (hlive : now' < now + ttlMs) :
    (MemoryStore.get (MemoryStore.set mst now k e ttlMs) now' k).1
      = some { e with expiresAt := some (now + ttlMs) }
    ∧ RedisStore.get pfx (RedisStore.set pfx rst now k e ttlMs) now' k
      = some (encodeEntry e)
    ∧ decodeEntry (encodeEntry e) = some e := by
  refine ⟨?_, ?_, decodeEntry_encodeEntry e⟩
  · have hk : (MemoryStore.set mst now k e ttlMs) k
        = some ⟨{ e with expiresAt := some (now + ttlMs) }, now + ttlMs⟩ := by
      unfold MemoryStore.set
      exact MemoryStore.update_self ..
    rw [MemoryStore.get_live hk (by simp; linarith)]
  · unfold RedisStore.get RedisStore.set
    rw [show (rst.update (pfx ++ k)
        (some (.json (encodeEntry e), some (now + ttlMs)))) = RedisState.update rst
        (pfx ++ k) (some (.json (encodeEntry e), some (now + ttlMs))) from rfl]
    unfold RedisState.rawGet
    rw [RedisState.update_self_eq]
    have hne : ¬ (now + ttlMs ≤ now') := by linarith
    simp only [if_neg hne, isStoreEntry_encodeEntry, if_pos]

/-- Witness for C3's amended round-trip at a concrete entry and TTL. -/
theorem store_set_get_roundtrip_witness :
    (MemoryStore.get
        (MemoryStore.set MemoryStore.State.empty 100 "k"
          { timestamps := some [7, 8], tokens := some (3/2) } 50) 120 "k").1
      = some { timestamps := some [7, 8], tokens := some (3/2),
               expiresAt := some 150 }
    ∧ RedisStore.get "rl:"
        (RedisStore.set "rl:" RedisState.empty 100 "k"
          { timestamps := some [7, 8], tokens := some (3/2) } 50) 120 "k"
      = some (encodeEntry { timestamps := some [7, 8], tokens := some (3/2) })
    ∧ decodeEntry (encodeEntry { timestamps := some [7, 8], tokens := some (3/2) })
      = some { timestamps := some [7, 8], tokens := some (3/2) } := by
  have h := store_set_get_roundtrip
    { timestamps := some [7, 8], tokens := some (3/2) } "k" "rl:"
    MemoryStore.State.empty RedisState.empty 100 50 120 (by norm_num)
  refine ⟨?_, h.2.1, h.2.2⟩
  rw [h.1]
  norm_num

/-- C10 counterexample: a stored JSON object with a present field of the
wrong type — `expiresAt: false` — passes `isStoreEntry` (which never
inspects `expiresAt`), so `RedisStore.get` returns it instead of `null`:
malformed backend data of this shape is NOT indistinguishable from a
missing key. -/
theorem redisStore_get_returns_malformed_entry :
    RedisStore.get "rl:"
      (RedisState.empty.update "rl:bad"
        (some (.json (.jobj [("expiresAt", .jbool false)]), none)))
      0 "bad"
      = some (.jobj [("expiresAt", .jbool false)])
    ∧ RedisStore.get "rl:"
      (RedisState.empty.update "rl:bad"
        (some (.json (.jobj [("expiresAt", .jbool false)]), none)))
      0 "bad" ≠ none := by
  have h : RedisStore.get "rl:"
      (RedisState.empty.update "rl:bad"
        (some (.json (.jobj [("expiresAt", .jbool false)]), none)))
      0 "bad"
      = some (.jobj [("expiresAt", .jbool false)]) := by
    unfold RedisStore.get
    have hraw : RedisState.rawGet
        (RedisState.empty.update "rl:bad"
          (some (.json (.jobj [("expiresAt", .jbool false)]), none)))
        0 ("rl:" ++ "bad") = some (.json (.jobj [("expiresAt", .jbool false)])) := by
      unfold RedisState.rawGet
      rw [show "rl:" ++ "bad" = "rl:bad" from rfl, RedisState.update_self_eq]
    rw [hraw]
    simp [isStoreEntry, JValue.jget, List.find?]
  exact ⟨h, by rw [h]; simp⟩

/-- C10 amended: `RedisStore.get` returns `null` (and never raises — the
parse failure is caught) exactly when the key is absent/expired, the
stored string is not valid JSON, or the parsed value fails `isStoreEntry`;
but `isStoreEntry` checks only that `count`/`tokens`/`lastRefill` are
numbers and `timestamps` is an array when present — `expiresAt` and
`windowStart` of the wrong type, ill-typed `timestamps` elements, and
bare JSON arrays all pass the guard and are returned as parsed. -/
theorem redisStore_get_malformed_handling (pfx key : String)
    (st : RedisState) (now : ℚ) :
    (RedisState.rawGet st now (pfx ++ key) = none →
      RedisStore.get pfx st now key = none)
    ∧ (RedisState.rawGet st now (pfx ++ key) = some .invalid →
      RedisStore.get pfx st now key = none)
    ∧ (∀ v, RedisState.rawGet st now (pfx ++ key) = some (.json v) →
      RedisStore.get pfx st now key = if isStoreEntry v then some v else none)
    ∧ isStoreEntry (.jobj [("count", .jstr "x")]) = false
    ∧ isStoreEntry (.jobj [("timestamps", .jnum 3)]) = false
    ∧ isStoreEntry (.jobj [("expiresAt", .jbool false)]) = true
    ∧ isStoreEntry (.jobj [("timestamps", .jarr [.jbool true])]) = true
    ∧ isStoreEntry (.jarr [.jnum 1]) = true
    ∧ isStoreEntry .jnull = false := by
  refine ⟨?_, ?_, ?_, ?_, ?_, ?_, ?_, ?_, ?_⟩
  · intro h
    unfold RedisStore.get
    rw [h]
  · intro h
    unfold RedisStore.get
    rw [h]
  · intro v h
    unfold RedisStore.get
    rw [h]
  · simp [isStoreEntry, JValue.jget, List.find?]
  · simp [isStoreEntry, JValue.jget, List.find?]
  · simp [isStoreEntry, JValue.jget, List.find?]
  · simp [isStoreEntry, JValue.jget, List.find?]
  · simp [isStoreEntry]
  · simp [isStoreEntry]

/-- Witness for C10's amended theorem: a backend holding invalid JSON
under the (prefixed) key reads as `null`. -/
theorem redisStore_get_malformed_handling_witness :
    RedisStore.get "rl:"
      (RedisState.empty.update "rl:j" (some (.invalid, none))) 0 "j" = none := by
  refine (redisStore_get_malformed_handling "rl:" "j"
    (RedisState.empty.update "rl:j" (some (.invalid, none))) 0).2.1 ?_
  unfold RedisState.rawGet
  rw [show "rl:" ++ "j" = "rl:j" from rfl, RedisState.update_self_eq]

lemma incrementGo_ok_committed (pfx key : String) (field : EntryField)
    (ttlMs now : ℚ) :
    ∀ (fuel : ℕ) (sched : List (Option (RedisState → RedisState)))
      (st : RedisState) (v : ℚ) (st' : RedisState),
      RedisStore.incrementGo pfx key field ttlMs now fuel sched st = .ok (v, st') →
      ∃ fs exp, st' (pfx ++ key) = some (.json (.jobj fs), exp)
        ∧ JValue.jget fs (RedisStore.fieldName field) = some (.jnum v) := by
  intro fuel
  induction fuel with
  | zero =>
      intro sched st v st' h
      simp [RedisStore.incrementGo] at h
  | succ n ih =>
      intro sched st v st' h
      rw [RedisStore.incrementGo] at h
      cases hh : sched.headD none with
      | some f =>
          simp only [hh] at h
          exact ih _ _ _ _ h
      | none =>
          simp only [hh, Except.ok.injEq, Prod.mk.injEq] at h
          obtain ⟨hv, hst⟩ := h
          subst hv
          split at hst
          · exact ⟨_, _, by rw [← hst]; exact RedisState.update_self_eq .., 
              JValue.jget_jset_self _ _ _⟩
          · exact ⟨_, _, by rw [← hst]; exact RedisState.update_self_eq .., 
              JValue.jget_jset_self _ _ _⟩

/-- C7: the distributed store's `increment` performs its optimistic
read-compute-write cycle at most 5 times: five consecutive concurrent
modifications (aborted `EXEC`s) exhaust the retries and raise the
reported failure — regardless of what the schedule holds afterwards, a
sixth attempt never happens; and whenever `increment` returns a value,
the committed backend entry holds exactly that post-increment count under
the incremented field. -/
theorem redisStore_increment_bounded_retries (pfx key : String)
    (field : EntryField) (ttlMs now : ℚ) :
    (∀ f₁ f₂ f₃ f₄ f₅ rest st,
      RedisStore.increment pfx key field ttlMs now
        (some f₁ :: some f₂ :: some f₃ :: some f₄ :: some f₅ :: rest) st
        = .error ("Failed to increment key \"" ++ key ++ "\" after 5 retries"))
    ∧ (∀ sched st v st',
      RedisStore.increment pfx key field ttlMs now sched st = .ok (v, st') →
      ∃ fs exp, st' (pfx ++ key) = some (.json (.jobj fs), exp)
        ∧ JValue.jget fs (RedisStore.fieldName field) = some (.jnum v)) := by
  constructor
  · intro f₁ f₂ f₃ f₄ f₅ rest st
    simp [RedisStore.increment, RedisStore.incrementGo]
  · intro sched st v st' h
    exact incrementGo_ok_committed pfx key field ttlMs now 5 sched st v st' h

/-- Witness for C7: with no concurrent writers, incrementing a fresh key
commits `count = 1`, and the committed entry is exactly what the returned
value reports. -/
theorem redisStore_increment_bounded_retries_witness :
    ∃ fs exp,
      (match RedisStore.increment "rl:" "w" EntryField.count 1000 0 []
          RedisState.empty with
        | .ok (_, st') => st' ("rl:" ++ "w")
        | .error _ => none)
        = some (.json (.jobj fs), exp)
      ∧ JValue.jget fs (RedisStore.fieldName EntryField.count)
        = some (.jnum 1) := by
  have hrun : RedisStore.increment "rl:" "w" EntryField.count 1000 0 []
      RedisState.empty
      = .ok (1, RedisState.empty.update "rl:w"
          (some (.json (.jobj [("count", .jnum 1)]), some (0 + 1000)))) := by
    show RedisStore.incrementGo "rl:" "w" EntryField.count 1000 0 5 [] _ = _
    rw [RedisStore.incrementGo]
    have hraw : RedisState.rawGet RedisState.empty 0 ("rl:" ++ "w") = none := rfl
    simp only [hraw, List.headD_nil, Option.isNone_none, if_pos]
    norm_num [JValue.jset, RedisStore.fieldName,
      show "rl:" ++ "w" = "rl:w" from rfl]
  have h := (redisStore_increment_bounded_retries "rl:" "w" EntryField.count
    1000 0).2 [] RedisState.empty 1 _ hrun
  obtain ⟨fs, exp, h1, h2⟩ := h
  exact ⟨fs, exp, by rw [hrun]; exact h1, h2⟩

namespace SlidingWindow

/-- `SlidingWindowAlgorithm` configuration; its constructor
(src/algorithms/sliding-window.ts:30-35) performs no validation. -/
structure Config where
  limit : ℚ
  windowMs : ℚ
deriving Repr, DecidableEq

/-- `timestamps.length > 0 ? Math.min(...timestamps) : now`. -/
def minOr (l : List ℚ) (dflt : ℚ) : ℚ :=
  match l with
  | [] => dflt
  | x :: xs => xs.foldl min x

/-- `SlidingWindowAlgorithm.consume` (src/algorithms/sliding-window.ts:37-86)
run against a `MemoryStore`: prune timestamps older than the window, deny
without writing when the survivor count reaches the limit, otherwise
append `now` and persist with TTL = `windowMs`. -/
def consume (cfg : Config) (st : MemoryStore.State String) (now : ℚ)
    (key : String) : RateLimitResult × MemoryStore.State String :=
  let windowStart := now - cfg.windowMs
  let got := MemoryStore.get st now key
  let timestamps₀ := (got.1.bind (·.timestamps)).getD []
  let timestamps := timestamps₀.filter (fun ts => windowStart < ts)
  let currentCount : ℚ := timestamps.length
  if cfg.limit ≤ currentCount then
    let oldestTimestamp := minOr timestamps now
    let resetAt := oldestTimestamp + cfg.windowMs
    let retryAfter := (⌈(oldestTimestamp + cfg.windowMs - now) / 1000⌉ : ℤ)
    ({ allowed := false, limit := cfg.limit, remaining := 0,
       resetAt := resetAt, retryAfter := some (max 1 (retryAfter : ℚ)) }, got.2)
  else
    let timestamps' := timestamps ++ [now]
    let newEntry : StoreEntry :=
      { timestamps := some timestamps', expiresAt := some (now + cfg.windowMs) }
    let st' := MemoryStore.set got.2 now key newEntry cfg.windowMs
    let oldestTimestamp := minOr timestamps' now
    ({ allowed := true, limit := cfg.limit,
       remaining := cfg.limit - timestamps'.length,
       resetAt := oldestTimestamp + cfg.windowMs }, st')

/-- `SlidingWindowAlgorithm.reset` (src/algorithms/sliding-window.ts:88-90). -/
def reset (st : MemoryStore.State String) (key : String) :
    MemoryStore.State String :=
  MemoryStore.del st key

/-- Run a sequence of `consume` calls for one key. -/
def run (cfg : Config) (key : String) :
    List ℚ → MemoryStore.State String →
    List RateLimitResult × MemoryStore.State String
  | [], st => ([], st)
  | t :: ts, st =>
      let r := consume cfg st t key
      let rest := run cfg key ts r.2
      (r.1 :: rest.1, rest.2)

/-- The timestamps list physically persisted for a key. -/
def storedTimestamps (st : MemoryStore.State String) (key : String) : List ℚ :=
  match st key with
  | none => []
  | some item => (item.entry.timestamps).getD []

lemma foldl_min_mem : ∀ (xs : List ℚ) (x : ℚ), xs.foldl min x ∈ x :: xs := by
  intro xs
  induction xs with
  | nil => intro x; simp
  | cons y ys ih =>
      intro x
      simp only [List.foldl_cons]
      rcases List.mem_cons.mp (ih (min x y)) with h | h
      · rcases min_choice x y with hm | hm
        · rw [h, hm]; exact List.mem_cons_self _ _
        · rw [h, hm]; exact List.mem_cons_of_mem _ (List.mem_cons_self _ _)
      · exact List.mem_cons_of_mem _ (List.mem_cons_of_mem _ h)

lemma foldl_min_le : ∀ (xs : List ℚ) (x y : ℚ), y ∈ x :: xs → xs.foldl min x ≤ y := by
  intro xs
  induction xs with
  | nil =>
      intro x y hy
      simp at hy
      simp [hy]
  | cons z zs ih =>
      intro x y hy
      simp only [List.foldl_cons]
      rcases List.mem_cons.mp hy with rfl | hy'
      · exact le_trans (ih _ _ (List.mem_cons_self _ _)) (min_le_left _ _)
      · rcases List.mem_cons.mp hy' with rfl | hy''
        · exact le_trans (ih _ _ (List.mem_cons_self _ _)) (min_le_right _ _)
        · exact ih _ _ (List.mem_cons_of_mem _ hy'')

lemma minOr_mem (l : List ℚ) (d : ℚ) (h : l ≠ []) : minOr l d ∈ l := by
  match l with
  | [] => exact absurd rfl h
  | x :: xs => exact foldl_min_mem xs x

lemma minOr_le (l : List ℚ) (d : ℚ) (y : ℚ) (hy : y ∈ l) : minOr l d ≤ y := by
  match l with
  | [] => simp at hy
  | x :: xs => exact foldl_min_le xs x y hy

lemma length_filter_eq_iff {p : ℚ → Prop} [DecidablePred p] :
    ∀ (l : List ℚ), (l.filter (fun x => decide (p x))).length = l.length ↔
      ∀ x ∈ l, p x := by
  intro l
  induction l with
  | nil => simp
  | cons x xs ih =>
      by_cases hx : p x
      · simp [List.filter_cons, hx, ih]
      · have hfc : (x :: xs).filter (fun y => decide (p y))
            = xs.filter (fun y => decide (p y)) := by
          simp [List.filter_cons, hx]
        rw [hfc]
        constructor
        · intro h
          exfalso
          have hle := List.length_filter_le (fun y => decide (p y)) xs
          simp only [List.length_cons] at h
          omega
        · intro h
          exact absurd (h x (List.mem_cons_self _ _)) hx

end SlidingWindow

/-- C4: each sliding-window `consume` first drops every stored timestamp
`≤ now - windowMs` (keeping `survivors`); with `n` survivors, if
`n ≥ limit` it denies with `remaining = 0`, `resetAt = t_min + windowMs`
and `retryAfter = max 1 ⌈(t_min + windowMs - now)/1000⌉` computed from
the oldest surviving timestamp `t_min` (a member of and lower bound of
the survivors), without appending `now` or writing; otherwise it appends
`now`, persists the list with TTL = `windowMs`, and allows with
`remaining = limit - (n + 1)`. -/
theorem slidingWindow_consume_prunes_then_decides
    (limit W now : ℚ) (key : String) (st : MemoryStore.State String)
    (hL : 1 ≤ limit) :
    ∀ survivors, survivors =
      ((((MemoryStore.get st now key).1.bind (·.timestamps)).getD
        []).filter (fun ts => now - W < ts)) →
    ((limit ≤ (survivors.length : ℚ) →
      SlidingWindow.consume ⟨limit, W⟩ st now key
        = ({ allowed := false, limit := limit, remaining := 0,
             resetAt := SlidingWindow.minOr survivors now + W,
             retryAfter := some (max 1
               ((⌈(SlidingWindow.minOr survivors now + W - now) / 1000⌉ : ℤ) : ℚ)) },
           (MemoryStore.get st now key).2)
      ∧ SlidingWindow.minOr survivors now ∈ survivors
      ∧ ∀ x ∈ survivors, SlidingWindow.minOr survivors now ≤ x)
    ∧ ((survivors.length : ℚ) < limit →
      SlidingWindow.consume ⟨limit, W⟩ st now key
        = ({ allowed := true, limit := limit,
             remaining := limit - ((survivors.length : ℚ) + 1),
             resetAt := SlidingWindow.minOr (survivors ++ [now]) now + W },
           MemoryStore.set (MemoryStore.get st now key).2 now key
             { timestamps := some (survivors ++ [now]),
               expiresAt := some (now + W) } W))) := by
  intro survivors hsurv
  constructor
  · intro hn
    have hcons : SlidingWindow.consume ⟨limit, W⟩ st now key
        = ({ allowed := false, limit := limit, remaining := 0,
             resetAt := SlidingWindow.minOr survivors now + W,
             retryAfter := some (max 1
               ((⌈(SlidingWindow.minOr survivors now + W - now) / 1000⌉ : ℤ) : ℚ)) },
           (MemoryStore.get st now key).2) := by
      unfold SlidingWindow.consume
      dsimp only
      rw [← hsurv, if_pos hn]
    have hne : survivors ≠ [] := by
      intro hnil
      rw [hnil] at hn
      simp at hn
      linarith
    exact ⟨hcons, SlidingWindow.minOr_mem _ _ hne,
      fun x hx => SlidingWindow.minOr_le _ _ x hx⟩
  · intro hn
    unfold SlidingWindow.consume
    dsimp only
    rw [← hsurv, if_neg (by push_neg; exact hn)]
    simp only [RateLimitResult.mk.injEq, Prod.mk.injEq, and_true, true_and,
      List.length_append, List.length_singleton]
    push_cast
    ring

/-- Witness for C4 (deny branch) at `limit = 2`, `W = 10000`,
`now = 10000`, stored timestamps `[500, 3000, 9000]`: all three survive
the pruning (all `> 0`), `3 ≥ 2` denies with `t_min = 500`,
`resetAt = 10500`, `retryAfter = max 1 ⌈500/1000⌉ = 1`, and no write. -/
theorem slidingWindow_consume_prunes_then_decides_witness :
    SlidingWindow.consume ⟨2, 10000⟩
      (MemoryStore.State.empty.update "k"
        (some ⟨{ timestamps := some [500, 3000, 9000] }, 10500⟩))
      10000 "k"
      = ({ allowed := false, limit := 2, remaining := 0, resetAt := 10500,
           retryAfter := some 1 },
         MemoryStore.State.empty.update "k"
           (some ⟨{ timestamps := some [500, 3000, 9000] }, 10500⟩)) := by
  have hget : MemoryStore.get
      (MemoryStore.State.empty.update "k"
        (some ⟨{ timestamps := some [500, 3000, 9000] }, 10500⟩)) 10000 "k"
      = (some { timestamps := some [500, 3000, 9000] },
         MemoryStore.State.empty.update "k"
           (some ⟨{ timestamps := some [500, 3000, 9000] }, 10500⟩)) :=
    MemoryStore.get_live (MemoryStore.update_self ..) (by norm_num)
  have hsurv : ([500, 3000, 9000] : List ℚ) =
      ((((MemoryStore.get (MemoryStore.State.empty.update "k"
          (some ⟨{ timestamps := some [500, 3000, 9000] }, 10500⟩)) 10000 "k").1.bind
        (·.timestamps)).getD []).filter (fun ts => (10000 : ℚ) - 10000 < ts)) := by
    rw [hget]
    simp only [Option.bind_some, Option.getD_some]
    norm_num [List.filter]
  have h := ((slidingWindow_consume_prunes_then_decides 2 10000 10000 "k"
    (MemoryStore.State.empty.update "k"
      (some ⟨{ timestamps := some [500, 3000, 9000] }, 10500⟩))
    (by norm_num)) [500, 3000, 9000] hsurv).1 (by norm_num)
  rw [h.1, hget]
  have hmin : SlidingWindow.minOr [(500 : ℚ), 3000, 9000] 10000 = 500 := by
    norm_num [SlidingWindow.minOr]
  rw [hmin]
  norm_num
  have hceil : (⌈(1 : ℚ) / 2⌉ : ℤ) = 1 := by
    rw [Int.ceil_eq_iff]
    norm_num
  rw [hceil]
  norm_num

namespace SlidingWindow

lemma consume_snd_deny (limit W now : ℚ) (key : String)
    (st : MemoryStore.State String)
    (hn : limit ≤ (((((MemoryStore.get st now key).1.bind (·.timestamps)).getD
      []).filter (fun ts => now - W < ts)).length : ℚ)) :
    (consume ⟨limit, W⟩ st now key).2 = (MemoryStore.get st now key).2 := by
  unfold consume
  dsimp only
  rw [if_pos hn]

lemma consume_snd_allow (limit W now : ℚ) (key : String)
    (st : MemoryStore.State String)
    (hn : ¬ limit ≤ (((((MemoryStore.get st now key).1.bind (·.timestamps)).getD
      []).filter (fun ts => now - W < ts)).length : ℚ)) :
    (consume ⟨limit, W⟩ st now key).2
      = MemoryStore.set (MemoryStore.get st now key).2 now key
          { timestamps := some
              (((((MemoryStore.get st now key).1.bind (·.timestamps)).getD
                []).filter (fun ts => now - W < ts)) ++ [now]),
            expiresAt := some (now + W) } W := by
  unfold consume
  dsimp only
  rw [if_neg hn]

/-- The state invariant the sliding-window algorithm maintains for a key:
any persisted entry holds a timestamps list of length at most
`max 0 ⌈limit⌉`. -/
def SwInv (limit : ℚ) (key : String) (st : MemoryStore.State String) : Prop :=
  ∀ item, st key = some item →
    ∃ l, item.entry.timestamps = some l ∧ (l.length : ℤ) ≤ max 0 ⌈limit⌉

lemma swInv_empty (limit : ℚ) (key : String) :
    SwInv limit key MemoryStore.State.empty := by
  intro item h
  simp [MemoryStore.State.empty] at h

lemma consume_preserves_inv (limit W now : ℚ) (key : String) (hW : 0 < W)
    (st : MemoryStore.State String) (hinv : SwInv limit key st) :
    SwInv limit key (consume ⟨limit, W⟩ st now key).2
    ∧ ∀ x ∈ storedTimestamps (consume ⟨limit, W⟩ st now key).2 key,
        now - W < x := by
  by_cases hn : limit ≤ (((((MemoryStore.get st now key).1.bind
      (·.timestamps)).getD []).filter (fun ts => now - W < ts)).length : ℚ)
  · -- deny branch: nothing is written
    rw [consume_snd_deny limit W now key st hn]
    match hst : st key with
    | none =>
        rw [MemoryStore.get_none now hst]
        dsimp only
        constructor
        · exact hinv
        · intro x hx
          unfold storedTimestamps at hx
          rw [hst] at hx
          simp at hx
    | some item =>
        by_cases hexp : item.expiresAt ≤ now
        · rw [MemoryStore.get_expired hst hexp]
          dsimp only
          constructor
          · intro it h
            rw [MemoryStore.update_self] at h
            exact absurd h (by simp)
          · intro x hx
            unfold storedTimestamps at hx
            rw [MemoryStore.update_self] at hx
            simp at hx
        · rw [MemoryStore.get_live hst hexp]
          dsimp only
          refine ⟨hinv, ?_⟩
          obtain ⟨l, hl, hlen⟩ := hinv item hst
          rw [MemoryStore.get_live hst hexp] at hn
          simp only [Option.some_bind, Option.bind_some, hl, Option.getD_some] at hn
          intro x hx
          unfold storedTimestamps at hx
          rw [hst] at hx
          simp only [hl, Option.getD_some] at hx
          -- the survivor count is `≥ ⌈limit⌉ ≥ |l|`, so every element survives
          have hceil : (⌈limit⌉ : ℤ) ≤
              ((l.filter (fun ts => now - W < ts)).length : ℤ) := by
            rw [Int.ceil_le]
            exact_mod_cast hn
          have hmax : (max 0 ⌈limit⌉ : ℤ) ≤
              ((l.filter (fun ts => now - W < ts)).length : ℤ) := by
            rw [max_le_iff]
            exact ⟨by positivity, hceil⟩
          have hle : (l.filter (fun ts => now - W < ts)).length ≤ l.length :=
            List.length_filter_le _ _
          have heq : (l.filter (fun ts => now - W < ts)).length = l.length := by
            omega
          have hall := (length_filter_eq_iff (p := fun ts => now - W < ts) l).mp heq
          exact hall x hx
  · -- allow branch: the pruned list plus `now` is written
    rw [consume_snd_allow limit W now key st hn]
    push_neg at hn
    have hcount : ((((((MemoryStore.get st now key).1.bind
        (·.timestamps)).getD []).filter
          (fun ts => now - W < ts)).length : ℤ) + 1) ≤ max 0 ⌈limit⌉ := by
      have h1 : (((((MemoryStore.get st now key).1.bind
          (·.timestamps)).getD []).filter
            (fun ts => now - W < ts)).length : ℤ) < ⌈limit⌉ := by
        rw [Int.lt_ceil]
        exact_mod_cast hn
      have := le_max_right (0 : ℤ) ⌈limit⌉
      omega
    constructor
    · intro it h
      unfold MemoryStore.set at h
      rw [MemoryStore.update_self] at h
      obtain rfl := Option.some.inj h
      exact ⟨_, rfl, by
        simp only [List.length_append, List.length_singleton]
        push_cast
        omega⟩
    · intro x hx
      unfold storedTimestamps at hx
      unfold MemoryStore.set at hx
      rw [MemoryStore.update_self] at hx
      simp only [Option.getD_some] at hx
      rcases List.mem_append.mp hx with hx' | hx'
      · have := List.mem_filter.mp hx'
        exact of_decide_eq_true this.2
      · rcases List.mem_singleton.mp hx' with rfl
        linarith

end SlidingWindow

namespace SlidingWindow

lemma run_snd_append (cfg : Config) (key : String) :
    ∀ (ts : List ℚ) (t : ℚ) (st : MemoryStore.State String),
      (run cfg key (ts ++ [t]) st).2 = (consume cfg (run cfg key ts st).2 t key).2 := by
  intro ts
  induction ts with
  | nil => intro t st; rfl
  | cons u us ih =>
      intro t st
      simp only [List.cons_append, run]
      exact ih t (consume cfg st u key).2

lemma run_preserves_inv (limit W : ℚ) (key : String) (hW : 0 < W) :
    ∀ (ts : List ℚ) (st : MemoryStore.State String),
      SwInv limit key st → SwInv limit key (run ⟨limit, W⟩ key ts st).2 := by
  intro ts
  induction ts with
  | nil => intro st h; exact h
  | cons u us ih =>
      intro st h
      simp only [run]
      exact ih _ ((consume_preserves_inv limit W u key hW st h).1)

end SlidingWindow

/-- C8: after every sliding-window `consume` (at instant `now`, following
any earlier sequence of `consume` calls for the key from a fresh store),
the persisted timestamps list for that key contains only instants newer
than `now - windowMs`, and its length never exceeds `max 0 ⌈limit⌉` — the
stored list cannot grow without bound for a fixed key. -/
theorem slidingWindow_persisted_timestamps_pruned
    (limit W : ℚ) (key : String) (times : List ℚ) (now : ℚ) (hW : 0 < W) :
    (∀ x ∈ SlidingWindow.storedTimestamps
        (SlidingWindow.run ⟨limit, W⟩ key (times ++ [now])
          MemoryStore.State.empty).2 key, now - W < x)
    ∧ ((SlidingWindow.storedTimestamps
        (SlidingWindow.run ⟨limit, W⟩ key (times ++ [now])
          MemoryStore.State.empty).2 key).length : ℤ) ≤ max 0 ⌈limit⌉ := by
  have hinv : SlidingWindow.SwInv limit key
      (SlidingWindow.run ⟨limit, W⟩ key times MemoryStore.State.empty).2 :=
    SlidingWindow.run_preserves_inv limit W key hW times MemoryStore.State.empty
      (SlidingWindow.swInv_empty limit key)
  have hstep := SlidingWindow.consume_preserves_inv limit W now key hW
    (SlidingWindow.run ⟨limit, W⟩ key times MemoryStore.State.empty).2 hinv
  rw [SlidingWindow.run_snd_append]
  refine ⟨hstep.2, ?_⟩
  have hinv' := hstep.1
  unfold SlidingWindow.storedTimestamps
  match hst : (SlidingWindow.consume ⟨limit, W⟩
      (SlidingWindow.run ⟨limit, W⟩ key times MemoryStore.State.empty).2 now key).2
      key with
  | none =>
      simp
  | some item =>
      obtain ⟨l, hl, hlen⟩ := hinv' item hst
      dsimp only
      rw [hl]
      simpa using hlen

/-- Witness for C8 at `limit = 1`, `W = 10`, a prior call at `t = 0` and a
final call at `now = 12`. -/
theorem slidingWindow_persisted_timestamps_pruned_witness :
    (∀ x ∈ SlidingWindow.storedTimestamps
        (SlidingWindow.run ⟨1, 10⟩ "k" ([0] ++ [12])
          MemoryStore.State.empty).2 "k", (12 : ℚ) - 10 < x)
    ∧ ((SlidingWindow.storedTimestamps
        (SlidingWindow.run ⟨1, 10⟩ "k" ([0] ++ [12])
          MemoryStore.State.empty).2 "k").length : ℤ) ≤ max 0 ⌈(1 : ℚ)⌉ :=
  slidingWindow_persisted_timestamps_pruned 1 10 "k" [0] 12 (by norm_num)

namespace TokenBucket

/-- `TokenBucketConfig`: bucket capacity and refill rate (tokens/second). -/
structure Config where
  capacity : ℚ
  refillRate : ℚ
deriving Repr, DecidableEq

/-- The `TokenBucketAlgorithm` constructor
(src/algorithms/token-bucket.ts:32-44): throws when `capacity ≤ 0` or
`refillRate ≤ 0`, otherwise yields the configured instance. -/
def make (capacity refillRate : ℚ) : Except String Config :=
  if capacity ≤ 0 then
    .error ("Token bucket capacity must be > 0. Received: " ++ toString capacity)
  else if refillRate ≤ 0 then
    .error ("Token bucket refillRate must be > 0. Received: " ++ toString refillRate)
  else
    .ok ⟨capacity, refillRate⟩

/-- `TokenBucketAlgorithm.consume` (src/algorithms/token-bucket.ts:49-108)
as a function of the entry `store.get` returned: produces the result, the
entry written back by `store.set`, and the TTL it is written with. -/
def consume (cfg : Config) (now : ℚ) (entry : Option StoreEntry) :
    RateLimitResult × StoreEntry × ℚ :=
  let tl : ℚ × ℚ :=
    match entry with
    | none => (cfg.capacity, now)
    | some e =>
        match e.tokens, e.lastRefill with
        | some tok, some lr =>
            let elapsedMs := now - lr
            let elapsedSeconds := elapsedMs / 1000
            let tokensToAdd := elapsedSeconds * cfg.refillRate
            (min cfg.capacity (tok + tokensToAdd), now)
        | _, _ => (cfg.capacity, now)
  let tokens := tl.1
  let lastRefill := tl.2
  if 1 ≤ tokens then
    let tokens' := tokens - 1
    let resetAt := now + ((cfg.capacity - tokens') / cfg.refillRate) * 1000
    let ttlMs := max (((cfg.capacity - tokens') / cfg.refillRate) * 1000 * (11 / 10)) 60000
    ({ allowed := true, limit := cfg.capacity,
       remaining := ((⌊tokens'⌋ : ℤ) : ℚ), resetAt := resetAt },
     { tokens := some tokens', lastRefill := some lastRefill,
       expiresAt := some (now + ttlMs) }, ttlMs)
  else
    let resetAt := now + ((cfg.capacity - tokens) / cfg.refillRate) * 1000
    let tokensNeeded := 1 - tokens
    let retryAfter := (⌈tokensNeeded / cfg.refillRate⌉ : ℤ)
    let ttlMs := max (((cfg.capacity - tokens) / cfg.refillRate) * 1000 * (11 / 10)) 60000
    ({ allowed := false, limit := cfg.capacity, remaining := 0,
       resetAt := resetAt, retryAfter := some (retryAfter : ℚ) },
     { tokens := some tokens, lastRefill := some lastRefill,
       expiresAt := some (now + ttlMs) }, ttlMs)

end TokenBucket

namespace FixedWindow

/-- The `FixedWindowAlgorithm` constructor
(src/algorithms/fixed-window.ts:92-97): assigns the config fields and
performs no validation — it never throws. -/
def make (limit windowMs : ℚ) : Except String Config :=
  .ok ⟨limit, windowMs⟩

end FixedWindow

namespace SlidingWindow

/-- The `SlidingWindowAlgorithm` constructor
(src/algorithms/sliding-window.ts:30-35): assigns the config fields and
performs no validation — it never throws. -/
def make (limit windowMs : ℚ) : Except String Config :=
  .ok ⟨limit, windowMs⟩

end SlidingWindow

/-- C5: token-bucket `consume` preserves `0 ≤ tokens ≤ capacity` on the
persisted bucket state: for every prior entry satisfying the invariant
and every nonnegative elapsed time since `lastRefill`, the refill is
capped at `capacity` (regardless of how much time elapsed) and the
persisted token count never becomes negative. -/
theorem tokenBucket_tokens_within_bounds (cap rate now : ℚ)
    (entry : Option StoreEntry) (hc : 0 < cap) (hr : 0 < rate)
    (hent : ∀ e tok lr, entry = some e → e.tokens = some tok →
      e.lastRefill = some lr → 0 ≤ tok ∧ tok ≤ cap ∧ lr ≤ now) :
    ∃ tok', (TokenBucket.consume ⟨cap, rate⟩ now entry).2.1.tokens = some tok'
      ∧ 0 ≤ tok' ∧ tok' ≤ cap := by
  unfold TokenBucket.consume
  dsimp only
  match entry with
  | none =>
      dsimp only
      by_cases h1 : (1 : ℚ) ≤ cap
      · rw [if_pos h1]
        exact ⟨cap - 1, rfl, by linarith, by linarith⟩
      · rw [if_neg h1]
        exact ⟨cap, rfl, le_of_lt hc, le_refl cap⟩
  | some e =>
      dsimp only
      match htok : e.tokens, hlr : e.lastRefill with
      | some tok, some lr =>
          dsimp only
          obtain ⟨h0, hcap, hnow⟩ := hent e tok lr rfl htok hlr
          set t := min cap (tok + (now - lr) / 1000 * rate) with ht
          have ht0 : 0 ≤ t := by
            rw [ht]
            apply le_min (le_of_lt hc)
            have : 0 ≤ (now - lr) / 1000 * rate := by
              apply mul_nonneg
              · apply div_nonneg (by linarith) (by norm_num)
              · exact le_of_lt hr
            linarith
          have htc : t ≤ cap := min_le_left _ _
          by_cases h1 : (1 : ℚ) ≤ t
          · rw [if_pos h1]
            exact ⟨t - 1, rfl, by linarith, by linarith⟩
          · rw [if_neg h1]
            exact ⟨t, rfl, ht0, htc⟩
      | some _, none =>
          dsimp only
          by_cases h1 : (1 : ℚ) ≤ cap
          · rw [if_pos h1]
            exact ⟨cap - 1, rfl, by linarith, by linarith⟩
          · rw [if_neg h1]
            exact ⟨cap, rfl, le_of_lt hc, le_refl cap⟩
      | none, some _ =>
          dsimp only
          by_cases h1 : (1 : ℚ) ≤ cap
          · rw [if_pos h1]
            exact ⟨cap - 1, rfl, by linarith, by linarith⟩
          · rw [if_neg h1]
            exact ⟨cap, rfl, le_of_lt hc, le_refl cap⟩
      | none, none =>
          dsimp only
          by_cases h1 : (1 : ℚ) ≤ cap
          · rw [if_pos h1]
            exact ⟨cap - 1, rfl, by linarith, by linarith⟩
          · rw [if_neg h1]
            exact ⟨cap, rfl, le_of_lt hc, le_refl cap⟩

/-- Witness for C5: the spec's own scenario — `capacity = 5`,
`refillRate = 10`/s, a drained bucket (`tokens = 0`) left idle for 60
seconds: the persisted token count stays within `[0, 5]` (the refill is
capped at 5; after consuming one the store holds 4). -/
theorem tokenBucket_tokens_within_bounds_witness :
    ∃ tok', (TokenBucket.consume ⟨5, 10⟩ 60000
        (some { tokens := some 0, lastRefill := some 0 })).2.1.tokens = some tok'
      ∧ 0 ≤ tok' ∧ tok' ≤ 5 :=
  tokenBucket_tokens_within_bounds 5 10 60000
    (some { tokens := some 0, lastRefill := some 0 })
    (by norm_num) (by norm_num)
    (by
      intro e tok lr he htok hlr
      obtain rfl := Option.some.inj he
      simp only [Option.some.injEq] at htok hlr
      subst htok
      subst hlr
      norm_num)

/-- C6 counterexample: constructing the fixed-window and sliding-window
algorithms with a non-positive `limit` (here 0) succeeds — their
constructors perform no validation, so the construction does not fail at
all, let alone immediately and loudly. (Only the token-bucket constructor
validates; a non-positive `limit` is rejected elsewhere, by the
`rateLimit` middleware factory, which is outside the algorithm
constructors this claim describes.) -/
theorem windowAlgorithm_construction_accepts_nonpositive_limit :
    FixedWindow.make 0 1000 = .ok ⟨0, 1000⟩
    ∧ SlidingWindow.make 0 1000 = .ok ⟨0, 1000⟩ :=
  ⟨rfl, rfl⟩

/-- C6 amended: only the token-bucket constructor fails immediately on a
non-positive parameter (`capacity ≤ 0` or `refillRate ≤ 0`), before any
request is processed; the fixed-window and sliding-window constructors
never fail — they accept any `limit`, non-positive included. -/
theorem algorithm_construction_validation (c r l w : ℚ) :
    (c ≤ 0 →
      TokenBucket.make c r
        = .error ("Token bucket capacity must be > 0. Received: " ++ toString c))
    ∧ (0 < c → r ≤ 0 →
      TokenBucket.make c r
        = .error ("Token bucket refillRate must be > 0. Received: " ++ toString r))
    ∧ (0 < c → 0 < r → TokenBucket.make c r = .ok ⟨c, r⟩)
    ∧ FixedWindow.make l w = .ok ⟨l, w⟩
    ∧ SlidingWindow.make l w = .ok ⟨l, w⟩ := by
  refine ⟨?_, ?_, ?_, rfl, rfl⟩
  · intro hcle
    unfold TokenBucket.make
    rw [if_pos hcle]
  · intro hc hrle
    unfold TokenBucket.make
    rw [if_neg (by linarith), if_pos hrle]
  · intro hc hr
    unfold TokenBucket.make
    rw [if_neg (by linarith), if_neg (by linarith)]

/-- Witness for C6's amended theorem at `capacity = -1`, `refillRate = 0`,
`limit = 0`, `windowMs = 1000`. -/
theorem algorithm_construction_validation_witness :
    TokenBucket.make (-1) 0
      = .error ("Token bucket capacity must be > 0. Received: " ++ toString (-1 : ℚ))
    ∧ FixedWindow.make 0 1000 = .ok ⟨0, 1000⟩
    ∧ SlidingWindow.make 0 1000 = .ok ⟨0, 1000⟩ := by
  have h := algorithm_construction_validation (-1) 0 0 1000
  exact ⟨h.1 (by norm_num), h.2.2.2.1, h.2.2.2.2⟩

/-!
Interleaving model for C9: `N` clients race `RedisStore.increment` on one
fresh key. Each client runs the source's loop body
(src/stores/redis.ts:94-128) in three atomic interaction points with the
backend — `WATCH` (records the key's modification state), `GET` +
the local compute (reads the field and computes `current + 1`), and
`MULTI/EXEC` (commits iff the key is unmodified since `WATCH`, else
aborts). The backend cell is the incremented field's value (`Option ℚ`,
`none` = key absent, read as 0) plus a version counter bumped by every
committed write, which is exactly Redis's `WATCH` conflict criterion for
this workload. -/

namespace RedisConc

/-- A client of the optimistic-increment loop. `attempts` is the loop
counter; `watchedVer` the version recorded by `WATCH`; `newVal` the
locally computed post-increment value awaiting `EXEC`. -/
inductive Client where
  | start (attempts : ℕ)
  | watched (attempts : ℕ) (watchedVer : ℕ)
  | ready (attempts : ℕ) (watchedVer : ℕ) (newVal : ℚ)
  | done (result : ℚ)
  | failed
deriving Repr, DecidableEq

/-- Global system state: the backend cell and the clients. -/
structure Sys where
  val : Option ℚ
  ver : ℕ
  clients : List Client
deriving Repr, DecidableEq

/-- One atomic interaction of a single client with the backend. -/
inductive ClientStep :
    Option ℚ → ℕ → Client → Option ℚ → ℕ → Client → Prop where
  | watch (a : ℕ) (v : Option ℚ) (ver : ℕ) :
      ClientStep v ver (.start a) v ver (.watched a ver)
  | read (a wv : ℕ) (v : Option ℚ) (ver : ℕ) :
      ClientStep v ver (.watched a wv) v ver (.ready a wv (v.getD 0 + 1))
  | commit (a : ℕ) (wv : ℕ) (nv : ℚ) (v : Option ℚ) :
      ClientStep v wv (.ready a wv nv) (some nv) (wv + 1) (.done nv)
  | conflictRetry (a wv : ℕ) (nv : ℚ) (v : Option ℚ) (ver : ℕ) :
      ver ≠ wv → a + 1 < 5 →
      ClientStep v ver (.ready a wv nv) v ver (.start (a + 1))
  | conflictFail (a wv : ℕ) (nv : ℚ) (v : Option ℚ) (ver : ℕ) :
      ver ≠ wv → ¬ a + 1 < 5 →
      ClientStep v ver (.ready a wv nv) v ver .failed

/-- Interleaving: some client takes a step. -/
inductive SysStep : Sys → Sys → Prop where
  | step (pre post : List Client) (c c' : Client) (v v' : Option ℚ)
      (ver ver' : ℕ) :
      ClientStep v ver c v' ver' c' →
      SysStep ⟨v, ver, pre ++ c :: post⟩ ⟨v', ver', pre ++ c' :: post⟩

/-- `N` clients about to call `increment` on a fresh (absent) key. -/
def init (N : ℕ) : Sys := ⟨none, 0, List.replicate N (.start 0)⟩

/-- The results of the clients that returned. -/
def doneVals (cs : List Client) : List ℚ :=
  cs.filterMap fun c =>
    match c with
    | .done r => some r
    | _ => none

lemma doneVals_append (l₁ l₂ : List Client) :
    doneVals (l₁ ++ l₂) = doneVals l₁ ++ doneVals l₂ :=
  List.filterMap_append ..

lemma doneVals_not_done (c : Client) (h : ∀ r, c ≠ .done r) :
    doneVals [c] = [] := by
  cases c <;> first
    | rfl
    | exact absurd rfl (h _)

/-- The invariant tying the committed cell to the completed clients:
the stored value counts the finished increments (`none` before the first
commit), the finished results are a permutation of `1..k`, every
still-valid pending commit carries exactly `current + 1`, and watched
versions never exceed the current version. -/
def Inv (s : Sys) : Prop :=
  (s.val = if (doneVals s.clients).length = 0 then none
    else some (((doneVals s.clients).length : ℕ) : ℚ))
  ∧ (doneVals s.clients).Perm
      ((List.range' 1 (doneVals s.clients).length).map fun n : ℕ => (n : ℚ))
  ∧ (∀ c ∈ s.clients, ∀ a wv nv, c = .ready a wv nv →
      wv = s.ver → nv = s.val.getD 0 + 1)
  ∧ (∀ c ∈ s.clients, ∀ a wv,
      (c = .watched a wv → wv ≤ s.ver)
      ∧ (∀ nv, c = .ready a wv nv → wv ≤ s.ver))

lemma inv_init (N : ℕ) : Inv (init N) := by
  refine ⟨?_, ?_, ?_, ?_⟩
  · have : doneVals (List.replicate N (.start 0)) = [] := by
      induction N with
      | zero => rfl
      | succ n ih => simpa [List.replicate_succ, doneVals] using ih
    simp [init, this]
  · have : doneVals (List.replicate N (.start 0)) = [] := by
      induction N with
      | zero => rfl
      | succ n ih => simpa [List.replicate_succ, doneVals] using ih
    simp [init, this]
  · intro c hc a wv nv hc'
    subst hc'
    exact absurd (List.eq_of_mem_replicate hc) (by simp)
  · intro c hc a wv
    constructor
    · intro hc'
      subst hc'
      exact absurd (List.eq_of_mem_replicate hc) (by simp)
    · intro nv hc'
      subst hc'
      exact absurd (List.eq_of_mem_replicate hc) (by simp)
end RedisConc

namespace RedisConc

lemma doneVals_middle (pre post : List Client) (c : Client) :
    doneVals (pre ++ c :: post) = doneVals pre ++ doneVals [c] ++ doneVals post := by
  rw [show c :: post = [c] ++ post from rfl, doneVals_append, doneVals_append]
  simp [List.append_assoc]

lemma inv_step {s s' : Sys} (hs : Inv s) (hstep : SysStep s s') : Inv s' := by
  obtain ⟨hval, hperm, hready, hwv⟩ := hs
  cases hstep with
  | step pre post c c' v v' ver ver' hcs =>
    cases hcs with
    | watch a =>
        have hdv : doneVals (pre ++ Client.watched a ver :: post)
            = doneVals (pre ++ Client.start a :: post) := by
          rw [doneVals_middle, doneVals_middle]
          rw [doneVals_not_done _ (by intro r h; cases h),
            doneVals_not_done _ (by intro r h; cases h)]
        refine ⟨by simpa [hdv] using hval, by simpa [hdv] using hperm, ?_, ?_⟩
        · intro d hd a' wv' nv' hd' hv'
          rcases List.mem_append.mp hd with hpre | hrest
          · exact hready d (List.mem_append.mpr (.inl hpre)) a' wv' nv' hd' hv'
          · rcases List.mem_cons.mp hrest with rfl | hpost
            · cases hd'
            · exact hready d (List.mem_append.mpr (.inr
                (List.mem_cons_of_mem _ hpost))) a' wv' nv' hd' hv'
        · intro d hd a' wv'
          rcases List.mem_append.mp hd with hpre | hrest
          · exact hwv d (List.mem_append.mpr (.inl hpre)) a' wv'
          · rcases List.mem_cons.mp hrest with rfl | hpost
            · constructor
              · intro hd'
                cases hd'
                exact le_refl _
              · intro nv' hd'
                cases hd'
            · exact hwv d (List.mem_append.mpr (.inr
                (List.mem_cons_of_mem _ hpost))) a' wv'
    | read a wv =>
        have hdv : doneVals (pre ++ Client.ready a wv (v.getD 0 + 1) :: post)
            = doneVals (pre ++ Client.watched a wv :: post) := by
          rw [doneVals_middle, doneVals_middle]
          rw [doneVals_not_done _ (by intro r h; cases h),
            doneVals_not_done _ (by intro r h; cases h)]
        have hwvle : wv ≤ ver :=
          (hwv (Client.watched a wv)
            (List.mem_append.mpr (.inr (List.mem_cons_self _ _))) a wv).1 rfl
        refine ⟨by simpa [hdv] using hval, by simpa [hdv] using hperm, ?_, ?_⟩
        · intro d hd a' wv' nv' hd' hv'
          rcases List.mem_append.mp hd with hpre | hrest
          · exact hready d (List.mem_append.mpr (.inl hpre)) a' wv' nv' hd' hv'
          · rcases List.mem_cons.mp hrest with rfl | hpost
            · cases hd'
              rfl
            · exact hready d (List.mem_append.mpr (.inr
                (List.mem_cons_of_mem _ hpost))) a' wv' nv' hd' hv'
        · intro d hd a' wv'
          rcases List.mem_append.mp hd with hpre | hrest
          · exact hwv d (List.mem_append.mpr (.inl hpre)) a' wv'
          · rcases List.mem_cons.mp hrest with rfl | hpost
            · constructor
              · intro hd'
                cases hd'
              · intro nv' hd'
                cases hd'
                exact hwvle
            · exact hwv d (List.mem_append.mpr (.inr
                (List.mem_cons_of_mem _ hpost))) a' wv'
    | commit a wv nv v =>
        dsimp only at hval hperm hready hwv ⊢
        have hmem : Client.ready a ver nv
            ∈ pre ++ Client.ready a ver nv :: post :=
          List.mem_append.mpr (.inr (List.mem_cons_self _ _))
        have hnv : nv = v.getD 0 + 1 := hready _ hmem a ver nv rfl rfl
        set k := (doneVals (pre ++ Client.ready a ver nv :: post)).length with hk
        have hgetd : v.getD 0 = (k : ℚ) := by
          rw [hval]
          by_cases hk0 : k = 0
          · simp [← hk, hk0]
          · simp [← hk, hk0]
        have hnvk : nv = (k : ℚ) + 1 := by rw [hnv, hgetd]
        have hdold : doneVals (pre ++ Client.ready a ver nv :: post)
            = doneVals pre ++ doneVals post := by
          rw [doneVals_middle, doneVals_not_done _ (by intro r h; cases h)]
          simp
        have hdnew : doneVals (pre ++ Client.done nv :: post)
            = doneVals pre ++ nv :: doneVals post := by
          rw [doneVals_middle]
          show doneVals pre ++ [nv] ++ doneVals post = _
          simp
        have hlen : (doneVals (pre ++ Client.done nv :: post)).length = k + 1 := by
          rw [hdnew, hk, hdold]
          simp only [List.length_append, List.length_cons]
          omega
        have hpermnew : (doneVals (pre ++ Client.done nv :: post)).Perm
            ((List.range' 1 ((doneVals (pre ++ Client.done nv :: post)).length)).map
              fun n : ℕ => (n : ℚ)) := by
          rw [hlen, hdnew]
          have h1 : (doneVals pre ++ nv :: doneVals post).Perm
              (nv :: (doneVals pre ++ doneVals post)) := List.perm_middle
          have h2 : (nv :: (doneVals pre ++ doneVals post)).Perm
              (nv :: ((List.range' 1 k).map fun n : ℕ => (n : ℚ))) := by
            refine List.Perm.cons nv ?_
            rw [← hdold]
            exact hperm
          have h3 : (List.range' 1 (k + 1)).map (fun n : ℕ => (n : ℚ))
              = ((List.range' 1 k).map fun n : ℕ => (n : ℚ)) ++ [((1 + k : ℕ) : ℚ)] := by
            rw [List.range'_concat]
            simp
          have h4 : (nv :: ((List.range' 1 k).map fun n : ℕ => (n : ℚ))).Perm
              (((List.range' 1 k).map fun n : ℕ => (n : ℚ)) ++ [nv]) :=
            (List.perm_append_singleton ..).symm
          refine (h1.trans (h2.trans (h4.trans ?_)))
          rw [h3, hnvk]
          have : ((1 + k : ℕ) : ℚ) = (k : ℚ) + 1 := by push_cast; ring
          rw [this]
        refine ⟨?_, hpermnew, ?_, ?_⟩
        · show some nv = _
          rw [hlen]
          simp only [Nat.succ_ne_zero, if_false, Option.some.injEq]
          rw [hnvk]
          push_cast
          ring
        · intro d hd a' ver' nv' hd' hv'
          dsimp only at hv'
          exfalso
          rcases List.mem_append.mp hd with hpre | hrest
          · have := (hwv d (List.mem_append.mpr (.inl hpre)) a' ver').2 nv' hd'
            omega
          · rcases List.mem_cons.mp hrest with rfl | hpost
            · cases hd'
            · have := (hwv d (List.mem_append.mpr (.inr
                (List.mem_cons_of_mem _ hpost))) a' ver').2 nv' hd'
              omega
        · intro d hd a' ver'
          dsimp only
          rcases List.mem_append.mp hd with hpre | hrest
          · have h := hwv d (List.mem_append.mpr (.inl hpre)) a' ver'
            exact ⟨fun hd' => le_trans (h.1 hd') (by omega),
              fun nv' hd' => le_trans (h.2 nv' hd') (by omega)⟩
          · rcases List.mem_cons.mp hrest with rfl | hpost
            · exact ⟨fun hd' => (by cases hd'), fun nv' hd' => (by cases hd')⟩
            · have h := hwv d (List.mem_append.mpr (.inr
                (List.mem_cons_of_mem _ hpost))) a' ver'
              exact ⟨fun hd' => le_trans (h.1 hd') (by omega),
                fun nv' hd' => le_trans (h.2 nv' hd') (by omega)⟩
    | conflictRetry a wv nv hne ha =>
        have hdv : doneVals (pre ++ Client.start (a + 1) :: post)
            = doneVals (pre ++ Client.ready a wv nv :: post) := by
          rw [doneVals_middle, doneVals_middle]
          rw [doneVals_not_done _ (by intro r h; cases h),
            doneVals_not_done _ (by intro r h; cases h)]
        refine ⟨by simpa [hdv] using hval, by simpa [hdv] using hperm, ?_, ?_⟩
        · intro d hd a' wv' nv' hd' hv'
          rcases List.mem_append.mp hd with hpre | hrest
          · exact hready d (List.mem_append.mpr (.inl hpre)) a' wv' nv' hd' hv'
          · rcases List.mem_cons.mp hrest with rfl | hpost
            · cases hd'
            · exact hready d (List.mem_append.mpr (.inr
                (List.mem_cons_of_mem _ hpost))) a' wv' nv' hd' hv'
        · intro d hd a' wv'
          rcases List.mem_append.mp hd with hpre | hrest
          · exact hwv d (List.mem_append.mpr (.inl hpre)) a' wv'
          · rcases List.mem_cons.mp hrest with rfl | hpost
            · exact ⟨fun hd' => (by cases hd'), fun nv' hd' => (by cases hd')⟩
            · exact hwv d (List.mem_append.mpr (.inr
                (List.mem_cons_of_mem _ hpost))) a' wv'
    | conflictFail a wv nv hne ha =>
        have hdv : doneVals (pre ++ Client.failed :: post)
            = doneVals (pre ++ Client.ready a wv nv :: post) := by
          rw [doneVals_middle, doneVals_middle]
          rw [doneVals_not_done _ (by intro r h; cases h),
            doneVals_not_done _ (by intro r h; cases h)]
        refine ⟨by simpa [hdv] using hval, by simpa [hdv] using hperm, ?_, ?_⟩
        · intro d hd a' wv' nv' hd' hv'
          rcases List.mem_append.mp hd with hpre | hrest
          · exact hready d (List.mem_append.mpr (.inl hpre)) a' wv' nv' hd' hv'
          · rcases List.mem_cons.mp hrest with rfl | hpost
            · cases hd'
            · exact hready d (List.mem_append.mpr (.inr
                (List.mem_cons_of_mem _ hpost))) a' wv' nv' hd' hv'
        · intro d hd a' wv'
          rcases List.mem_append.mp hd with hpre | hrest
          · exact hwv d (List.mem_append.mpr (.inl hpre)) a' wv'
          · rcases List.mem_cons.mp hrest with rfl | hpost
            · exact ⟨fun hd' => (by cases hd'), fun nv' hd' => (by cases hd')⟩
            · exact hwv d (List.mem_append.mpr (.inr
                (List.mem_cons_of_mem _ hpost))) a' wv'

end RedisConc

namespace RedisConc

lemma inv_reachable {s s' : Sys}
    (h : Relation.ReflTransGen SysStep s s') (hs : Inv s) : Inv s' := by
  induction h with
  | refl => exact hs
  | tail _ hstep ih => exact inv_step ih hstep

lemma clients_length_step {s s' : Sys} (h : SysStep s s') :
    s'.clients.length = s.clients.length := by
  cases h with
  | step pre post c c' v v' ver ver' hcs => simp

lemma clients_length_reachable {s s' : Sys}
    (h : Relation.ReflTransGen SysStep s s') :
    s'.clients.length = s.clients.length := by
  induction h with
  | refl => rfl
  | tail _ hstep ih => rw [clients_length_step hstep, ih]

lemma doneVals_length_of_all_done (cs : List Client)
    (h : ∀ c ∈ cs, ∃ r, c = .done r) :
    (doneVals cs).length = cs.length := by
  induction cs with
  | nil => rfl
  | cons c cs ih =>
      obtain ⟨r, rfl⟩ := h c (List.mem_cons_self _ _)
      have := ih fun d hd => h d (List.mem_cons_of_mem _ hd)
      simp only [doneVals, List.filterMap_cons] at this ⊢
      simp [this]

end RedisConc

namespace MemoryStore

/-- `N` back-to-back `increment` calls for one key — the quasi-serial
(cooperatively scheduled) interleaving of `N` callers on the local store:
each call's read-modify-write runs without suspension
(src/stores/memory.ts:105-126 contains no `await`), so any interleaving
is a sequential composition. -/
def incrementN (key : String) (field : EntryField) (ttlMs now : ℚ) :
    ℕ → State String → List ℚ × State String
  | 0, st => ([], st)
  | n + 1, st =>
      let r := increment st now key field ttlMs
      let rest := incrementN key field ttlMs now n r.2
      (r.1 :: rest.1, rest.2)

end MemoryStore

lemma EntryField.read_write (f : EntryField) (e : StoreEntry) (v : ℚ) :
    f.read (f.write e v) = some v := by
  cases f <;> rfl

lemma EntryField.write_write (f : EntryField) (e : StoreEntry) (v v' : ℚ) :
    f.write (f.write e v) v' = f.write e v' := by
  cases f <;> rfl

lemma memoryStore_incrementN_spec (key : String) (f : EntryField)
    (ttlMs now : ℚ) (h : ¬ now + ttlMs ≤ now) :
    ∀ (n m : ℕ) (st : MemoryStore.State String),
      (st key = if m = 0 then none
        else some ⟨f.write { expiresAt := some (now + ttlMs) } (m : ℚ), now + ttlMs⟩) →
      (MemoryStore.incrementN key f ttlMs now n st).1
        = (List.range' (m + 1) n).map (fun j : ℕ => (j : ℚ))
      ∧ ((MemoryStore.incrementN key f ttlMs now n st).2 key
        = if m + n = 0 then none
          else some ⟨f.write { expiresAt := some (now + ttlMs) } ((m + n : ℕ) : ℚ),
            now + ttlMs⟩) := by
  intro n
  induction n with
  | zero =>
      intro m st hst
      refine ⟨rfl, ?_⟩
      simpa using hst
  | succ n ih =>
      intro m st hst
      rcases Nat.eq_zero_or_pos m with rfl | hm
      · rw [if_pos rfl] at hst
        have hstep := MemoryStore.increment_create now f ttlMs hst
        have hst' : (MemoryStore.increment st now key f ttlMs).2 key
            = if (1 : ℕ) = 0 then none
              else some ⟨f.write { expiresAt := some (now + ttlMs) } ((1 : ℕ) : ℚ),
                now + ttlMs⟩ := by
          rw [hstep]
          dsimp only
          rw [MemoryStore.update_self]
          norm_num
        have hrec := ih 1 _ hst'
        constructor
        · show (MemoryStore.increment st now key f ttlMs).1 ::
            (MemoryStore.incrementN key f ttlMs now n
              (MemoryStore.increment st now key f ttlMs).2).1 = _
          rw [hrec.1, hstep]
          dsimp only
          rw [List.range'_succ]
          simp
        · show (MemoryStore.incrementN key f ttlMs now n
            (MemoryStore.increment st now key f ttlMs).2).2 key = _
          rw [hrec.2]
          norm_num
          congr 1
          push_cast
          ring
      · have hmne : m ≠ 0 := Nat.pos_iff_ne_zero.mp hm
        rw [if_neg hmne] at hst
        have hstep := MemoryStore.increment_live f ttlMs hst (by exact h)
        simp only [EntryField.read_write, Option.getD_some,
          EntryField.write_write] at hstep
        have hst' : (MemoryStore.increment st now key f ttlMs).2 key
            = if m + 1 = 0 then none
              else some ⟨f.write { expiresAt := some (now + ttlMs) } ((m + 1 : ℕ) : ℚ),
                now + ttlMs⟩ := by
          rw [hstep]
          dsimp only
          rw [MemoryStore.update_self]
          have : ((m : ℚ) + 1) = ((m + 1 : ℕ) : ℚ) := by push_cast; ring
          rw [this]
          simp
        have hrec := ih (m + 1) _ hst'
        constructor
        · show (MemoryStore.increment st now key f ttlMs).1 ::
            (MemoryStore.incrementN key f ttlMs now n
              (MemoryStore.increment st now key f ttlMs).2).1 = _
          rw [hrec.1, hstep]
          dsimp only
          rw [List.range'_succ]
          have : ((m : ℚ) + 1) = ((m + 1 : ℕ) : ℚ) := by push_cast; ring
          rw [this]
          simp
        · show (MemoryStore.incrementN key f ttlMs now n
            (MemoryStore.increment st now key f ttlMs).2).2 key = _
          rw [hrec.2]
          have : m + 1 + n = m + (n + 1) := by omega
          rw [this]

/-- C9: `N` concurrent `increment` calls on one fresh key yield a final
stored value of exactly `N`. Distributed store: in every state reachable
by interleaving the `N` optimistic-increment clients, the committed value
equals the number of completed calls (no lost update, no over-count), the
returned values are a permutation of the distinct sequential values
`1..k`, and when all `N` clients are done the stored value is exactly
`N`. Local store: `N` interleaved (quasi-serial, run-to-completion)
callers compose sequentially; they return `1..N` and leave the stored
field at exactly `N`. -/
theorem increment_concurrent_yields_exactly_N (N : ℕ) (hN : 1 ≤ N)
    (key : String) (field : EntryField) (ttlMs now : ℚ) (httl : 0 < ttlMs)
    (s : RedisConc.Sys)
    (hreach : Relation.ReflTransGen RedisConc.SysStep (RedisConc.init N) s) :
    (s.val = if (RedisConc.doneVals s.clients).length = 0 then none
      else some (((RedisConc.doneVals s.clients).length : ℕ) : ℚ))
    ∧ (RedisConc.doneVals s.clients).Perm
        ((List.range' 1 (RedisConc.doneVals s.clients).length).map
          fun n : ℕ => (n : ℚ))
    ∧ ((∀ c ∈ s.clients, ∃ r, c = RedisConc.Client.done r) →
        s.val = some ((N : ℕ) : ℚ))
    ∧ (MemoryStore.incrementN key field ttlMs now N MemoryStore.State.empty).1
        = (List.range' 1 N).map (fun j : ℕ => (j : ℚ))
    ∧ ((MemoryStore.incrementN key field ttlMs now N
          MemoryStore.State.empty).2 key).map (fun it => field.read it.entry)
        = some (some ((N : ℕ) : ℚ)) := by
  have hinv := RedisConc.inv_reachable hreach (RedisConc.inv_init N)
  obtain ⟨hval, hperm, _, _⟩ := hinv
  have hmem := memoryStore_incrementN_spec key field ttlMs now
    (by intro hc; linarith) N 0 MemoryStore.State.empty
    (by simp [MemoryStore.State.empty])
  refine ⟨hval, hperm, ?_, by simpa using hmem.1, ?_⟩
  · intro hdone
    have hlen : (RedisConc.doneVals s.clients).length = N := by
      rw [RedisConc.doneVals_length_of_all_done s.clients hdone]
      have := RedisConc.clients_length_reachable hreach
      simpa [RedisConc.init] using this
    rw [hval, hlen]
    have : N ≠ 0 := by omega
    simp [this]
  · have h2 := hmem.2
    have : (0 : ℕ) + N ≠ 0 := by omega
    rw [if_neg this] at h2
    rw [h2]
    simp [EntryField.read_write]

/-- Witness for C9 at `N = 1`: the single client watches, reads, and
commits; the final backend value is 1 and the memory store agrees. -/
theorem increment_concurrent_yields_exactly_N_witness :
    ((⟨some 1, 1, [RedisConc.Client.done 1]⟩ : RedisConc.Sys).val
      = some (((1 : ℕ) : ℕ) : ℚ))
    ∧ (MemoryStore.incrementN "k" EntryField.count 1000 0 1
        MemoryStore.State.empty).1
        = (List.range' 1 1).map (fun j : ℕ => (j : ℚ)) := by
  have hstep1 : RedisConc.SysStep (RedisConc.init 1)
      ⟨none, 0, [RedisConc.Client.watched 0 0]⟩ := by
    have := RedisConc.SysStep.step [] [] (RedisConc.Client.start 0)
      (RedisConc.Client.watched 0 0) none none 0 0
      (RedisConc.ClientStep.watch 0 none 0)
    simpa [RedisConc.init] using this
  have hstep2 : RedisConc.SysStep ⟨none, 0, [RedisConc.Client.watched 0 0]⟩
      ⟨none, 0, [RedisConc.Client.ready 0 0 ((none : Option ℚ).getD 0 + 1)]⟩ := by
    have := RedisConc.SysStep.step [] [] (RedisConc.Client.watched 0 0)
      (RedisConc.Client.ready 0 0 ((none : Option ℚ).getD 0 + 1)) none none 0 0
      (RedisConc.ClientStep.read 0 0 none 0)
    simpa using this
  have hstep3 : RedisConc.SysStep
      ⟨none, 0, [RedisConc.Client.ready 0 0 ((none : Option ℚ).getD 0 + 1)]⟩
      ⟨some ((none : Option ℚ).getD 0 + 1), 1, [RedisConc.Client.done
        ((none : Option ℚ).getD 0 + 1)]⟩ := by
    have := RedisConc.SysStep.step [] []
      (RedisConc.Client.ready 0 0 ((none : Option ℚ).getD 0 + 1))
      (RedisConc.Client.done ((none : Option ℚ).getD 0 + 1))
      none (some ((none : Option ℚ).getD 0 + 1)) 0 1
      (RedisConc.ClientStep.commit 0 0 ((none : Option ℚ).getD 0 + 1) none)
    simpa using this
  have hreach : Relation.ReflTransGen RedisConc.SysStep (RedisConc.init 1)
      ⟨some ((none : Option ℚ).getD 0 + 1), 1, [RedisConc.Client.done
        ((none : Option ℚ).getD 0 + 1)]⟩ :=
    Relation.ReflTransGen.head hstep1
      (Relation.ReflTransGen.head hstep2
        (Relation.ReflTransGen.single hstep3))
  have hfinal : ((none : Option ℚ).getD 0 + 1) = (1 : ℚ) := by norm_num
  rw [hfinal] at hreach
  have h := increment_concurrent_yields_exactly_N 1 (le_refl 1) "k"
    EntryField.count 1000 0 (by norm_num) _ hreach
  refine ⟨h.2.2.1 ?_, h.2.2.2.1⟩
  intro c hc
  rcases List.mem_singleton.mp hc with rfl
  exact ⟨1, rfl⟩
